import Mathlib

/-!
# Verification of the octet-sdn binary serialization codec

Shallow embedding of `src/generator.ts` (encoder) and `src/parser.ts`
(decoder, second half of the file): a self-describing byte stream codec
with a length-delimited chunked wire encoding.

Bytes are modelled as `Nat` (values < 256 where produced by the code),
byte buffers as `List Nat`, pieces emitted by iterators as `List (List Nat)`.
JS numbers are modelled by their 64-bit IEEE-754 bit pattern (the codec
moves them through `setFloat64`/`getFloat64` without arithmetic, so the
bit pattern is exactly the information on the wire).  JS strings are
modelled as lists of Unicode scalar codepoints.
-/

/-! ## Type tags

Modelled from the spec: the `TYPES` enumeration lives in `constants.js`,
which is not part of the provided sources.  The spec (§3 "TypeTag", §6)
requires only an 8-way closed enumeration of distinct, stable one-byte
codes, one per value kind; the concrete numeric values below are an
arbitrary distinct assignment consistent with that contract. -/

def T_NULL : Nat := 0
def T_UNDEFINED : Nat := 1
def T_BOOLEAN : Nat := 2
def T_NUMBER : Nat := 3
def T_STRING : Nat := 4
def T_STREAM : Nat := 5
def T_ARRAY : Nat := 6
def T_OBJECT : Nat := 7

/-- Hard cap: the largest chunk size representable in the 4-byte length
field (`generator.ts` line 108). -/
def CAP : Nat := 4294967295

/-- Soft flush threshold (`generator.ts` line 87). -/
def SOFT : Nat := 65536

/-! ## Big-endian byte encoding (`DataView.setUint32`/`getFloat64` etc.) -/

/-- `n`-byte big-endian encoding of `v % 256^n` (MSB first). -/
def beBytes : Nat → Nat → List Nat
  | 0, _ => []
  | n + 1, v => beBytes n (v / 256) ++ [v % 256]

/-- Read a big-endian byte list as a natural number
(`DataView.getUint32`/`getFloat64` bit collection). -/
def beToNat (bs : List Nat) : Nat := bs.foldl (fun a b => a * 256 + b) 0

theorem beBytes_length (n v : Nat) : (beBytes n v).length = n := by
  induction n generalizing v with
  | zero => rfl
  | succ n ih => simp [beBytes, ih]

theorem beToNat_append_one (xs : List Nat) (b : Nat) :
    beToNat (xs ++ [b]) = beToNat xs * 256 + b := by
  simp [beToNat, List.foldl_append]

theorem beToNat_beBytes (n v : Nat) : beToNat (beBytes n v) = v % 256 ^ n := by
  induction n generalizing v with
  | zero => simp [beBytes, beToNat, Nat.mod_one]
  | succ n ih =>
    rw [beBytes, beToNat_append_one, ih, Nat.pow_succ, Nat.mul_comm (256 ^ n) 256,
      Nat.mod_mul]
    ring

theorem beToNat_beBytes_of_lt {n v : Nat} (h : v < 256 ^ n) :
    beToNat (beBytes n v) = v := by
  rw [beToNat_beBytes, Nat.mod_eq_of_lt h]

theorem beBytes_lt (n v : Nat) : ∀ b ∈ beBytes n v, b < 256 := by
  induction n generalizing v with
  | zero => simp [beBytes]
  | succ n ih =>
    intro b hb
    rw [beBytes] at hb
    rcases List.mem_append.1 hb with h | h
    · exact ih _ _ h
    · simp only [List.mem_singleton] at h
      subst h; exact Nat.mod_lt _ (by norm_num)

/-! ## UTF-8 (`TextEncoder` / `TextDecoder("utf-8")`)

The codec defers text conversion to the host's WHATWG encoder/decoder
(spec §1 "Out of scope: UTF-8 encode/decode primitives").  We embed them
directly: `utf8EncodeCp` is the standard UTF-8 serialization of one
Unicode scalar value, and `utf8Run` is the WHATWG "UTF-8 decode" state
machine, including its replacement-character (U+FFFD) error mode — the
parser constructs `TextDecoder` without `fatal`, so decoding never
throws. -/

/-- A Unicode scalar value: what a (surrogate-free) JS string stores per
codepoint and what `TextEncoder` serializes losslessly. -/
def ScalarCp (c : Nat) : Prop := c < 1114112 ∧ (c < 55296 ∨ 57344 ≤ c)

instance : DecidablePred ScalarCp := fun _ => by unfold ScalarCp; infer_instance

/-- UTF-8 bytes of one Unicode scalar value. -/
def utf8EncodeCp (c : Nat) : List Nat :=
  if c < 128 then [c]
  else if c < 2048 then [192 + c / 64, 128 + c % 64]
  else if c < 65536 then [224 + c / 4096, 128 + c / 64 % 64, 128 + c % 64]
  else [240 + c / 262144, 128 + c / 4096 % 64, 128 + c / 64 % 64, 128 + c % 64]

/-- UTF-8 bytes of a codepoint sequence (`TextEncoder.encode`). -/
def utf8Encode (cps : List Nat) : List Nat := cps.flatMap utf8EncodeCp

/-- WHATWG UTF-8 decoder state: accumulated codepoint, continuation bytes
needed and seen, and the valid range for the next continuation byte.
`needed = 0` is the start state. -/
structure DecSt where
  cp : Nat
  needed : Nat
  seen : Nat
  lo : Nat
  hi : Nat
deriving DecidableEq

def decSt0 : DecSt := ⟨0, 0, 0, 128, 191⟩

/-- Handle one byte in the start state: emitted codepoints and next state
(WHATWG utf-8 decoder, `bytes needed = 0` arm). -/
def utf8StartByte (b : Nat) : List Nat × DecSt :=
  if b ≤ 127 then ([b], decSt0)
  else if 194 ≤ b ∧ b ≤ 223 then ([], ⟨b % 32, 1, 0, 128, 191⟩)
  else if 224 ≤ b ∧ b ≤ 239 then
    ([], ⟨b % 16, 2, 0, if b = 224 then 160 else 128, if b = 237 then 159 else 191⟩)
  else if 240 ≤ b ∧ b ≤ 244 then
    ([], ⟨b % 8, 3, 0, if b = 240 then 144 else 128, if b = 244 then 143 else 191⟩)
  else ([65533], decSt0)

/-- Handle one byte in any state (WHATWG utf-8 decoder step).  In the
continuation state an out-of-range byte emits U+FFFD and reprocesses the
byte in the start state. -/
def utf8StepByte : DecSt → Nat → List Nat × DecSt
  | ⟨cp, needed, seen, lo, hi⟩, b =>
    if needed = 0 then utf8StartByte b
    else if lo ≤ b ∧ b ≤ hi then
      if seen + 1 = needed then ([cp * 64 + b % 64], decSt0)
      else ([], ⟨cp * 64 + b % 64, needed, seen + 1, 128, 191⟩)
    else
      let (out, st') := utf8StartByte b
      (65533 :: out, st')

/-- Run the WHATWG utf-8 decoder over a byte list; `tailF` is the
end-of-stream behavior, applied to the final decoder state. -/
def utf8RunT (tailF : DecSt → List Nat) (st : DecSt) : List Nat → List Nat
  | [] => tailF st
  | b :: rest =>
    let (out, st') := utf8StepByte st b
    out ++ utf8RunT tailF st' rest

/-- Decoder run with end-of-stream flush — what one full (non-streaming)
`TextDecoder.decode(bytes)` call does: a truncated trailing sequence
emits one U+FFFD. -/
def utf8Run (st : DecSt) : List Nat → List Nat :=
  utf8RunT (fun st' => if st'.needed = 0 then [] else [65533]) st

/-- Decoder run without the end-of-stream flush: the parser's STRING
branch calls `decoder.decode(chunk, {stream: true})` per chunk and
never issues a final flushing call, so a truncated trailing sequence at
the end of the payload emits nothing. -/
def utf8RunNF (st : DecSt) : List Nat → List Nat := utf8RunT (fun _ => []) st

/-- Default BOM handling (`ignoreBOM: false`, the Encoding Standard's
BOM-seen flag): a leading U+FEFF in the decoder's output — necessarily
decoded from a leading `EF BB BF` byte sequence — is stripped. -/
def stripBOM : List Nat → List Nat
  | 65279 :: rest => rest
  | out => out

/-- `new TextDecoder("utf-8").decode(bytes)` as a codepoint sequence:
one full decode, with flush and leading-BOM stripping.  This is how the
parser decodes object keys (line 407, a fresh decoder per key). -/
def utf8Decode (bs : List Nat) : List Nat := stripBOM (utf8Run decSt0 bs)

/-- The accumulated output of the STRING branch's per-chunk streaming
decodes (lines 370-380, a fresh decoder per string): the same state
machine and leading-BOM stripping, but no final flush. -/
def utf8DecodeStream (bs : List Nat) : List Nat := stripBOM (utf8RunNF decSt0 bs)

theorem utf8RunT_step (tailF : DecSt → List Nat) (st : DecSt) (b : Nat)
    (rest out : List Nat) (st' : DecSt) (h : utf8StepByte st b = (out, st')) :
    utf8RunT tailF st (b :: rest) = out ++ utf8RunT tailF st' rest := by
  rw [utf8RunT, h]

theorem utf8StartByte_two (b : Nat) (h : 194 ≤ b ∧ b ≤ 223) :
    utf8StartByte b = ([], ⟨b % 32, 1, 0, 128, 191⟩) := by
  rw [utf8StartByte, if_neg (show ¬b ≤ 127 by omega), if_pos h]

theorem utf8StartByte_three (b : Nat) (h : 224 ≤ b ∧ b ≤ 239) :
    utf8StartByte b = ([], ⟨b % 16, 2, 0, if b = 224 then 160 else 128,
      if b = 237 then 159 else 191⟩) := by
  rw [utf8StartByte, if_neg (show ¬b ≤ 127 by omega),
    if_neg (show ¬(194 ≤ b ∧ b ≤ 223) by omega), if_pos h]

theorem utf8StartByte_four (b : Nat) (h : 240 ≤ b ∧ b ≤ 244) :
    utf8StartByte b = ([], ⟨b % 8, 3, 0, if b = 240 then 144 else 128,
      if b = 244 then 143 else 191⟩) := by
  rw [utf8StartByte, if_neg (show ¬b ≤ 127 by omega),
    if_neg (show ¬(194 ≤ b ∧ b ≤ 223) by omega),
    if_neg (show ¬(224 ≤ b ∧ b ≤ 239) by omega), if_pos h]

theorem utf8StepByte_zero (cp seen lo hi b : Nat) :
    utf8StepByte ⟨cp, 0, seen, lo, hi⟩ b = utf8StartByte b := by
  rw [utf8StepByte, if_pos rfl]

theorem utf8StepByte_st0 (b : Nat) : utf8StepByte decSt0 b = utf8StartByte b :=
  utf8StepByte_zero 0 0 128 191 b

theorem utf8StepByte_cont_ok (cp n s lo hi b : Nat) (hn : ¬n = 0)
    (hin : lo ≤ b ∧ b ≤ hi) (hlast : s + 1 = n) :
    utf8StepByte ⟨cp, n, s, lo, hi⟩ b = ([cp * 64 + b % 64], decSt0) := by
  rw [utf8StepByte, if_neg hn, if_pos hin, if_pos hlast]

theorem utf8StepByte_cont_more (cp n s lo hi b : Nat) (hn : ¬n = 0)
    (hin : lo ≤ b ∧ b ≤ hi) (hlast : ¬s + 1 = n) :
    utf8StepByte ⟨cp, n, s, lo, hi⟩ b =
      ([], ⟨cp * 64 + b % 64, n, s + 1, 128, 191⟩) := by
  rw [utf8StepByte, if_neg hn, if_pos hin, if_neg hlast]

/-- Decoding the UTF-8 bytes of one scalar value emits exactly that
codepoint and returns to the start state. -/
theorem utf8RunT_encodeCp (tailF : DecSt → List Nat) (c : Nat) (hc : ScalarCp c)
    (rest : List Nat) :
    utf8RunT tailF decSt0 (utf8EncodeCp c ++ rest) = c :: utf8RunT tailF decSt0 rest := by
  obtain ⟨h1, h2⟩ := hc
  rw [utf8EncodeCp]
  by_cases ha : c < 128
  · rw [if_pos ha, List.cons_append, List.nil_append]
    rw [utf8RunT_step tailF _ _ _ _ _ (by
      rw [utf8StepByte_st0, utf8StartByte, if_pos (show c ≤ 127 by omega)])]
    rfl
  · rw [if_neg ha]
    by_cases hb : c < 2048
    · rw [if_pos hb, List.cons_append, List.cons_append, List.nil_append]
      rw [utf8RunT_step tailF _ _ _ _ (⟨c / 64, 1, 0, 128, 191⟩ : DecSt) (by
        rw [utf8StepByte_st0, utf8StartByte_two _ (by omega)]
        rw [show (192 + c / 64) % 32 = c / 64 by omega])]
      rw [List.nil_append]
      rw [utf8RunT_step tailF _ _ _ [c] decSt0 (by
        rw [utf8StepByte_cont_ok _ _ _ _ _ _ (by omega) (by omega) rfl]
        rw [show c / 64 * 64 + (128 + c % 64) % 64 = c by omega])]
      rfl
    · rw [if_neg hb]
      by_cases hd : c < 65536
      · rw [if_pos hd, List.cons_append, List.cons_append, List.cons_append,
          List.nil_append]
        rw [utf8RunT_step tailF _ _ _ _
          (⟨c / 4096, 2, 0, if 224 + c / 4096 = 224 then 160 else 128,
            if 224 + c / 4096 = 237 then 159 else 191⟩ : DecSt) (by
          rw [utf8StepByte_st0, utf8StartByte_three _ (by omega)]
          rw [show (224 + c / 4096) % 16 = c / 4096 by omega])]
        rw [List.nil_append]
        rw [utf8RunT_step tailF _ _ _ _ (⟨c / 64, 2, 1, 128, 191⟩ : DecSt) (by
          rw [utf8StepByte_cont_more _ _ _ _ _ _ (by omega)
            (by constructor <;> split_ifs <;> omega) (by omega)]
          rw [show c / 4096 * 64 + (128 + c / 64 % 64) % 64 = c / 64 by omega])]
        rw [List.nil_append]
        rw [utf8RunT_step tailF _ _ _ [c] decSt0 (by
          rw [utf8StepByte_cont_ok _ _ _ _ _ _ (by omega) (by omega) rfl]
          rw [show c / 64 * 64 + (128 + c % 64) % 64 = c by omega])]
        rfl
      · rw [if_neg hd, List.cons_append, List.cons_append, List.cons_append,
          List.cons_append, List.nil_append]
        rw [utf8RunT_step tailF _ _ _ _
          (⟨c / 262144, 3, 0, if 240 + c / 262144 = 240 then 144 else 128,
            if 240 + c / 262144 = 244 then 143 else 191⟩ : DecSt) (by
          rw [utf8StepByte_st0, utf8StartByte_four _ (by omega)]
          rw [show (240 + c / 262144) % 8 = c / 262144 by omega])]
        rw [List.nil_append]
        rw [utf8RunT_step tailF _ _ _ _ (⟨c / 4096, 3, 1, 128, 191⟩ : DecSt) (by
          rw [utf8StepByte_cont_more _ _ _ _ _ _ (by omega)
            (by constructor <;> split_ifs <;> omega) (by omega)]
          rw [show c / 262144 * 64 + (128 + c / 4096 % 64) % 64 = c / 4096 by omega])]
        rw [List.nil_append]
        rw [utf8RunT_step tailF _ _ _ _ (⟨c / 64, 3, 2, 128, 191⟩ : DecSt) (by
          rw [utf8StepByte_cont_more _ _ _ _ _ _ (by omega) (by omega) (by omega)]
          rw [show c / 4096 * 64 + (128 + c / 64 % 64) % 64 = c / 64 by omega])]
        rw [List.nil_append]
        rw [utf8RunT_step tailF _ _ _ [c] decSt0 (by
          rw [utf8StepByte_cont_ok _ _ _ _ _ _ (by omega) (by omega) rfl]
          rw [show c / 64 * 64 + (128 + c % 64) % 64 = c by omega])]
        rfl

/-- Decoding the full UTF-8 encoding of a scalar sequence, before BOM
stripping: the codepoints followed by the end-of-stream output of the
clean start state. -/
theorem utf8RunT_encode (tailF : DecSt → List Nat) (cps : List Nat)
    (h : ∀ c ∈ cps, ScalarCp c) :
    utf8RunT tailF decSt0 (utf8Encode cps) = cps ++ tailF decSt0 := by
  induction cps with
  | nil => rfl
  | cons c cs ih =>
    rw [utf8Encode, List.flatMap_cons, utf8RunT_encodeCp tailF c (h c (by simp)) _]
    rw [utf8Encode] at ih
    rw [ih fun x hx => h x (by simp [hx])]
    rfl

theorem stripBOM_of_ne (l : List Nat) (h : l.head? ≠ some 65279) : stripBOM l = l := by
  unfold stripBOM
  split
  · rename_i rest
    simp at h
  · rfl

/-- Round-trip of UTF-8 on scalar codepoint sequences not starting with
U+FEFF: what a full `TextDecoder.decode` call returns on `TextEncoder`
output.  (A leading U+FEFF would be stripped as a BOM.) -/
theorem utf8Decode_utf8Encode (cps : List Nat) (h : ∀ c ∈ cps, ScalarCp c)
    (hb : cps.head? ≠ some 65279) : utf8Decode (utf8Encode cps) = cps := by
  unfold utf8Decode utf8Run
  rw [utf8RunT_encode _ cps h]
  show stripBOM (cps ++ []) = cps
  rw [List.append_nil]
  exact stripBOM_of_ne cps hb

/-- Round-trip of UTF-8 through the streaming (never-flushed) decoder on
scalar sequences not starting with U+FEFF: a complete encoding leaves
the decoder in the start state, so the missing flush emits nothing. -/
theorem utf8DecodeStream_utf8Encode (cps : List Nat) (h : ∀ c ∈ cps, ScalarCp c)
    (hb : cps.head? ≠ some 65279) : utf8DecodeStream (utf8Encode cps) = cps := by
  unfold utf8DecodeStream utf8RunNF
  rw [utf8RunT_encode _ cps h]
  show stripBOM (cps ++ []) = cps
  rw [List.append_nil]
  exact stripBOM_of_ne cps hb

/-! ## Errors

The source throws plain `Error`s with distinct messages; the spec (§7)
names the taxonomy.  One constructor per distinct failure site. -/

inductive Err where
  /-- Encoder reached a value of unrecognized kind
  (`generator.ts` line 242, message "Invalid data"; spec `UnsupportedValue`). -/
  | unsupportedValue
  /-- Encoder pre-flight traversal found a cycle (lines 221/231). -/
  | circularReference
  /-- Decoder path length exceeded `maxDepth` (line 335). -/
  | depthExceeded
  /-- Decoder saw a Boolean payload byte other than 0/1
  (line 358; spec `InvalidEncoding`). -/
  | invalidData
  /-- Decoder saw an unrecognized type tag (line 414; spec `InvalidEncoding`). -/
  | invalidType
  /-- Decoder expected a String tag for an object key (line 405). -/
  | invalidKey
  /-- `streamMaxSize` crossed (line 367). -/
  | streamSizeExceeded
  /-- `stringMaxSize` crossed (lines 376/407). -/
  | stringSizeExceeded
  /-- `arrayMaxLength` crossed (line 388). -/
  | arrayLengthExceeded
  /-- `objectMaxLength` crossed (line 402). -/
  | objectLengthExceeded
  /-- Byte source exhausted before a required byte count was available
  (spec §4.1/§7 `PrematureEnd`, raised by the `Splitable` collaborator). -/
  | prematureEnd
  /-- Artifact of the fueled embedding; never returned when the fuel
  bound is sufficient (all concrete and round-trip theorems exhibit
  sufficient fuel). -/
  | noFuel
deriving DecidableEq

/-! ## The chunker (`StreamIterator`, `generator.ts` lines 57-152) -/

/-- Process one incoming piece through `StreamIterator.next`
(lines 87-118), starting from staging buffer `staged`: returns the
chunks flushed while consuming the piece and the new staging buffer.

A piece that fits in the remaining space (`space >= item.value.length`,
line 109) is appended whole; the soft-flush check at line 87 then runs on
the next `next()` call, before the next piece is pulled.  A piece that
does not fit is split: the prefix filling the buffer to exactly `CAP` is
flushed (the line 87 check fires because `CAP ≥ SOFT`), and the
remainder re-enters as the next item (lines 91-93).

`fuel` bounds the splitting loop; each split consumes
`CAP - staged.length ≥ 1` bytes (the code maintains
`chunkSize ≤ CAP`, line 107), so `fuel = p.length` always suffices. -/
def fillPieceF (fuel : Nat) (staged p : List Nat) : List (List Nat) × List Nat :=
  if p.length ≤ CAP - staged.length then
    if SOFT ≤ staged.length + p.length then ([staged ++ p], [])
    else ([], staged ++ p)
  else
    match fuel with
    | 0 => ([], staged ++ p)
    | f + 1 =>
      let (cs, st) := fillPieceF f [] (List.drop (CAP - staged.length) p)
      ((staged ++ List.take (CAP - staged.length) p) :: cs, st)

/-- `flushChunk(true)` (lines 98-101 and 137-151) at the chunk level: the
final data chunk, followed by the zero-length terminator when the final
chunk carried data (a zero-size final flush already is the terminator). -/
def chunkFinish (staged : List Nat) : List (List Nat) :=
  if staged.length ≠ 0 then [staged, []] else [[]]

/-- Drive the chunker over the whole sequence of source pieces.  The
result is the sequence of chunks (as raw data, without their length
fields) flushed by the `StreamIterator`, and the error with which the
source iterator ended, if any: a throwing source propagates out of
`next()` (line 95) without any final flush, so staged data is dropped
and no terminator is emitted. -/
def chunkStream : List Nat → List (List Nat) → Option Err → List (List Nat) × Option Err
  | _staged, [], some e => ([], some e)
  | staged, [], none => (chunkFinish staged, none)
  | staged, p :: rest, err =>
    let (cs, st) := fillPieceF p.length staged p
    let (cs2, e2) := chunkStream st rest err
    (cs ++ cs2, e2)

/-- The chunk sequence the encoder emits for a non-throwing source
delivering `pieces`. -/
def chunkPieces (pieces : List (List Nat)) : List (List Nat) :=
  (chunkStream [] pieces none).1

/-- Wire framing of a chunk sequence: each chunk is its 4-byte big-endian
length followed by its data (`flushChunk`, lines 138-141). -/
def frameChunks (cs : List (List Nat)) : List (List Nat) :=
  cs.map (fun c => beBytes 4 c.length ++ c)

/-! ## The value model

`Value` models the JS values the codec supports (spec §3).  `num` is the
64-bit IEEE-754 bit pattern: the codec moves numbers through
`setFloat64`/`getFloat64` (big-endian) only, so the bit pattern carries
exactly the wire information, including `NaN`, `±0` and `±Infinity`.
`str` is the sequence of Unicode scalar codepoints.  `stream` is the
byte content of a `Uint8Array` source (line 213 wraps it as the single
source piece `[value]`).  `boolObj`/`numObj`/`strObj` are the wrapper
objects `new Boolean`/`new Number`/`new String` recognized by the
`instanceof` arms of the dispatch (lines 185, 192, 201).
`unsupported` stands for any value of unrecognized kind (reaching
line 242). -/

inductive Value where
  | null
  | undef
  | bool (b : Bool)
  | num (bits : Nat)
  | str (cps : List Nat)
  | stream (bytes : List Nat)
  | arr (elems : List Value)
  | obj (pairs : List (List Nat × Value))
  | boolObj (b : Bool)
  | numObj (bits : Nat)
  | strObj (cps : List Nat)
  | unsupported

mutual
/-- The value kinds claimed by the round-trip property (spec §8): the
eight plain kinds, with well-formed payloads — a number is a 64-bit
pattern, string codepoints are Unicode scalars, stream bytes are bytes,
and object keys are distinct (JS object keys are unique at encode time,
spec §3). -/
def validB : Value → Bool
  | .null => true
  | .undef => true
  | .bool _ => true
  | .num bits => decide (bits < 2 ^ 64)
  | .str s => s.all fun c => decide (ScalarCp c)
  | .stream bs => bs.all fun b => decide (b < 256)
  | .arr es => validListB es
  | .obj prs => decide (prs.map Prod.fst).Nodup && validKVB prs
  | .boolObj _ => false
  | .numObj _ => false
  | .strObj _ => false
  | .unsupported => false

def validListB : List Value → Bool
  | [] => true
  | v :: vs => validB v && validListB vs

def validKVB : List (List Nat × Value) → Bool
  | [] => true
  | (k, v) :: rest =>
    (k.all fun c => decide (ScalarCp c)) && validB v && validKVB rest
end

mutual
/-- Whether a value (transitively) contains a value of unrecognized kind. -/
def hasUnsupported : Value → Bool
  | .arr es => hasUnsupportedList es
  | .obj prs => hasUnsupportedKV prs
  | .unsupported => true
  | _ => false

def hasUnsupportedList : List Value → Bool
  | [] => false
  | v :: vs => hasUnsupported v || hasUnsupportedList vs

def hasUnsupportedKV : List (List Nat × Value) → Bool
  | [] => false
  | (_, v) :: rest => hasUnsupported v || hasUnsupportedKV rest
end

mutual
/-- No String payload and no Object key anywhere in the value begins
with U+FEFF: on such values the decoder's default leading-BOM stripping
is the identity, so text decoding is exact. -/
def bomFree : Value → Bool
  | .str s => decide (s.head? ≠ some 65279)
  | .strObj s => decide (s.head? ≠ some 65279)
  | .arr es => bomFreeList es
  | .obj prs => bomFreeKV prs
  | _ => true

def bomFreeList : List Value → Bool
  | [] => true
  | v :: vs => bomFree v && bomFreeList vs

def bomFreeKV : List (List Nat × Value) → Bool
  | [] => true
  | (k, v) :: rest =>
    decide (k.head? ≠ some 65279) && bomFree v && bomFreeKV rest
end

/-! ## The encoder (`generator` / `multiGenerator`, lines 170-295)

`generator v` is the sequence of pieces the async iterator for `v`
emits, paired with the error (if any) with which iteration ends instead
of completing.  Fixed-size types go through `CommonIterator` (tag piece,
then the literal payload pieces); chunked types go through
`StreamIterator` (tag piece, then one piece per flushed chunk — here
given at chunk granularity via `frameChunks`, which is byte-for-byte the
emitted data).

The `hasCircular` pre-flight check (lines 220, 230) is identically false
on the tree values modelled here: it detects a revisited *ancestor
identity*, and a structural tree never revisits an ancestor.  The check
and its graph semantics are modelled separately on the heap model below
(for the circularity claim), so it is elided from this tree encoder.

An unsupported value hits line 242: `generator(value)` itself throws, so
iteration ends in the error before any piece is emitted. -/

/-- The pieces for a JS string: the string branch (lines 201-207), a
`StreamIterator` over the single piece `TextEncoder().encode(value)`. -/
def strPieces (cps : List Nat) : List (List Nat) :=
  [T_STRING] :: frameChunks (chunkPieces [utf8Encode cps])

mutual
def generator : Value → List (List Nat) × Option Err
  | .null => ([[T_NULL]], none)
  | .undef => ([[T_UNDEFINED]], none)
  | .bool b => ([[T_BOOLEAN], [if b then 1 else 0]], none)
  | .num bits => ([[T_NUMBER], beBytes 8 bits], none)
  | .str s => (strPieces s, none)
  | .stream bs => ([T_STREAM] :: frameChunks (chunkPieces [bs]), none)
  | .arr es =>
    let (ps, e) := multiGenerator es
    let (cs, e2) := chunkStream [] ps e
    ([T_ARRAY] :: frameChunks cs, e2)
  | .obj prs =>
    let (ps, e) := multiGeneratorKV prs
    let (cs, e2) := chunkStream [] ps e
    ([T_OBJECT] :: frameChunks cs, e2)
  | .boolObj b => ([[T_BOOLEAN], [if b then 1 else 0]], none)
  | .numObj bits => ([[T_NUMBER], beBytes 8 bits], none)
  | .strObj s => (strPieces s, none)
  | .unsupported => ([], some .unsupportedValue)

/-- `multiGenerator` (lines 245-287): serially exhaust one value's
iterator before starting the next; a thrown error stops iteration. -/
def multiGenerator : List Value → List (List Nat) × Option Err
  | [] => ([], none)
  | v :: vs =>
    let (p, e) := generator v
    match e with
    | some err => (p, some err)
    | none =>
      let (q, e2) := multiGenerator vs
      (p ++ q, e2)

/-- `multiGenerator` over the `flatted` key/value list built by the
object branch (lines 233-237): each key is encoded exactly as a
String-typed value (keys are strings, so their `generator` dispatch is
the string branch, i.e. `strPieces`, and never throws). -/
def multiGeneratorKV : List (List Nat × Value) → List (List Nat) × Option Err
  | [] => ([], none)
  | (k, v) :: rest =>
    let (p, e) := generator v
    match e with
    | some err => (strPieces k ++ p, some err)
    | none =>
      let (q, e2) := multiGeneratorKV rest
      (strPieces k ++ p ++ q, e2)
end

/-- The byte image of a value's full encoding: the concatenation of all
emitted pieces (what `easyGenerator` collects, lines 289-291). -/
def encBytes (v : Value) : List Nat := (generator v).1.flatten

/-! ## The decoder (`parser`, `parser.ts`)

The chunked-stream reading primitives (`readEnoughSize`,
`splitChunkedStream`, `readChunkedStream`, `hasValue`) belong to the
out-of-scope `async-iterable-split` collaborator; they are modelled from
the spec contract (§4.1, §6): read exactly N bytes failing with
`PrematureEnd` on a short source, read chunks until the zero-length
terminator, report whether payload bytes remain.

The embedding reads a chunked payload's chunks eagerly before descending
into it, where the source interleaves chunk reads with element parsing;
on well-formed wire (all success cases and every claim below) the
results coincide, since element parsing consumes exactly the
concatenation of the chunk data and the sub-source ends at the
terminator.

Recursion is by fuel; `Err.noFuel` never escapes a sufficiently fueled
run. -/

/-- Decoder options (`parser.ts` lines 299-310): each limit defaults to
`Infinity`, modelled as `none`. -/
structure options where
  streamMaxSize : Option Nat
  stringMaxSize : Option Nat
  arrayMaxLength : Option Nat
  objectMaxLength : Option Nat
  maxDepth : Option Nat
deriving DecidableEq

/-- All limits `Infinity` (the defaults of lines 325-332). -/
def defaultOptions : options := ⟨none, none, none, none, none⟩

/-- JS `n > lim` where `lim` may be `Infinity` (`none`). -/
def exceedsLimit (n : Nat) (lim : Option Nat) : Bool :=
  match lim with
  | none => false
  | some m => decide (m < n)

/-- JS `n >= lim` where `lim` may be `Infinity` (`none`). -/
def atLimit (n : Nat) (lim : Option Nat) : Bool :=
  match lim with
  | none => false
  | some m => decide (m ≤ n)

/-- A decode path segment: an object key or an array index (the
`paths` entries of `parser.ts`). -/
abbrev PathSeg := List Nat ⊕ Nat

/-- `Splitable.readEnoughSize` (spec §6 contract (a)): exactly `n`
bytes, or `PrematureEnd`. -/
def readEnoughSize (n : Nat) (bs : List Nat) : Except Err (List Nat × List Nat) :=
  if n ≤ bs.length then .ok (bs.take n, bs.drop n) else .error .prematureEnd

/-- Read a chunked stream's chunks up to and including its zero-length
terminator (spec §4.1): returns the data chunks and the remaining bytes
after the terminator.  Fueled: one unit per chunk. -/
def readChunksF : Nat → List Nat → Except Err (List (List Nat) × List Nat)
  | 0, _ => .error .noFuel
  | fuel + 1, bs => do
    let (hd, r) ← readEnoughSize 4 bs
    if beToNat hd = 0 then .ok ([], r)
    else do
      let (c, r2) ← readEnoughSize (beToNat hd) r
      let (cs, r3) ← readChunksF fuel r2
      .ok (c :: cs, r3)

/-- Cumulative size check over a chunk sequence, failing with `e` at the
first chunk whose addition pushes the total over the limit (the
`(size += chunk.length) > max` pattern of line 375, and the bound of
`readChunkedStream`). -/
def sizeCheckAux (e : Err) (lim : Option Nat) : Nat → List (List Nat) → Except Err Unit
  | _, [] => .ok ()
  | size, c :: cs =>
    if exceedsLimit (size + c.length) lim then .error e
    else sizeCheckAux e lim (size + c.length) cs

/-- JS property assignment `result[key] = value` on an ordered mapping:
overwrite in place when the key exists, append otherwise. -/
def objInsert : List (List Nat × Value) → List Nat → Value → List (List Nat × Value)
  | [], k, v => [(k, v)]
  | (k', v') :: rest, k, v =>
    if k' = k then (k', v) :: rest else (k', v') :: objInsert rest k v

mutual
/-- `parser` (lines 324-415): recursive-descent decode of one value from
the front of `bs`, returning it with the unconsumed remainder.  The
depth check (lines 334-336) runs before the tag byte is read. -/
def parser : Nat → options → List PathSeg → List Nat → Except Err (Value × List Nat)
  | 0, _, _, _ => .error .noFuel
  | fuel + 1, opts, paths, bs =>
    if exceedsLimit paths.length opts.maxDepth then .error .depthExceeded
    else do
      let (t, r) ← readEnoughSize 1 bs
      let tag := t.headD 0
      if tag = T_NULL then .ok (.null, r)
      else if tag = T_UNDEFINED then .ok (.undef, r)
      else if tag = T_BOOLEAN then do
        let (d, r2) ← readEnoughSize 1 r
        if d.headD 0 = 0 then .ok (.bool false, r2)
        else if d.headD 0 = 1 then .ok (.bool true, r2)
        else .error .invalidData
      else if tag = T_NUMBER then do
        let (d, r2) ← readEnoughSize 8 r
        .ok (.num (beToNat d), r2)
      else if tag = T_STREAM then do
        let (cs, r2) ← readChunksF fuel r
        match sizeCheckAux .streamSizeExceeded opts.streamMaxSize 0 cs with
        | .error e => .error e
        | .ok _ => .ok (.stream cs.flatten, r2)
      else if tag = T_STRING then do
        let (cs, r2) ← readChunksF fuel r
        match sizeCheckAux .stringSizeExceeded opts.stringMaxSize 0 cs with
        | .error e => .error e
        | .ok _ => .ok (.str (utf8DecodeStream cs.flatten), r2)
      else if tag = T_ARRAY then do
        let (cs, r2) ← readChunksF fuel r
        let es ← parseElems fuel opts paths 0 cs.flatten
        .ok (.arr es, r2)
      else if tag = T_OBJECT then do
        let (cs, r2) ← readChunksF fuel r
        let prs ← parsePairs fuel opts paths 0 [] cs.flatten
        .ok (.obj prs, r2)
      else .error .invalidType

/-- The array element loop (lines 382-394): while payload bytes remain
(`hasValue`), check `result.length >= arrayMaxLength`, then recurse with
the element index appended to the path. -/
def parseElems : Nat → options → List PathSeg → Nat → List Nat → Except Err (List Value)
  | 0, _, _, _, _ => .error .noFuel
  | fuel + 1, opts, paths, count, payload =>
    match payload with
    | [] => .ok []
    | _ :: _ =>
      if atLimit count opts.arrayMaxLength then .error .arrayLengthExceeded
      else do
        let (v, r) ← parser fuel opts (paths ++ [.inr count]) payload
        let es ← parseElems fuel opts paths (count + 1) r
        .ok (v :: es)

/-- The object pair loop (lines 395-411): while payload bytes remain,
check `length >= objectMaxLength` (note: the source never increments
`length`, so `len` is deliberately not incremented here either, line
397 vs. the loop body), require a String tag, read the key's chunked
stream bounded by `stringMaxSize`, decode the key, recurse for the
value with the key appended to the path, and assign
`result[key] = value`. -/
def parsePairs : Nat → options → List PathSeg → Nat → List (List Nat × Value) → List Nat →
    Except Err (List (List Nat × Value))
  | 0, _, _, _, _, _ => .error .noFuel
  | fuel + 1, opts, paths, len, acc, payload =>
    match payload with
    | [] => .ok acc
    | t :: r =>
      if atLimit len opts.objectMaxLength then .error .objectLengthExceeded
      else if t ≠ T_STRING then .error .invalidKey
      else do
        let (kcs, r2) ← readChunksF fuel r
        match sizeCheckAux .stringSizeExceeded opts.stringMaxSize 0 kcs with
        | .error e => .error e
        | .ok _ => do
          let (v, r3) ← parser fuel opts (paths ++ [.inl (utf8Decode kcs.flatten)]) r2
          parsePairs fuel opts paths len (objInsert acc (utf8Decode kcs.flatten) v) r3
end

/-! ## The heap model and `hasCircular` (lines 154-168)

The tree type `Value` cannot represent the reference cycles
`hasCircular` exists to detect, so the cycle detector is modelled on an
explicit heap: `Heap` is a store of composite objects (arrays or plain
objects), each an ordered list of enumerable property values; `HVal` is
either a non-object primitive (never stored in the `WeakSet`, never
recursed into) or a reference into the store.  `for (const key in
value)` enumerates exactly the stored property values. -/

inductive HVal where
  | prim
  | ref (r : Nat)
deriving DecidableEq

abbrev Heap := List (List HVal)

/-- `hasCircular(value, refs)` (lines 154-168): `refs` is the set of
ancestor object identities currently on the traversal stack (`add`
before the loop, `delete` after, i.e. the child traversals run with
`r :: refs`).  A reference outside the store has no children (in JS
every reference resolves, so that case is vacuous). -/
def hasCircular (h : Heap) : HVal → List Nat → Bool
  | .prim, _ => false
  | .ref r, refs =>
    if hr : r ∈ refs then true
    else
      match hg : h[r]? with
      | none => false
      | some obj => obj.attach.any fun c => hasCircular h c.1 (r :: refs)
termination_by v refs => ((Finset.range h.length) \ refs.toFinset).card
decreasing_by
  have hlt : r < h.length := (List.getElem?_eq_some.mp hg).1
  rw [List.toFinset_cons, Finset.sdiff_insert]
  exact Finset.card_erase_lt_of_mem
    (Finset.mem_sdiff.mpr ⟨Finset.mem_range.mpr hlt, by simpa using hr⟩)

/-- One parent-to-child reference edge of the heap. -/
inductive Step (h : Heap) : Nat → Nat → Prop where
  | mk : ∀ {r s : Nat} (obj : List HVal), h[r]? = some obj →
      HVal.ref s ∈ obj → Step h r s

/-- A value transitively contains a reference cycle: some object
reachable from it (through any chain of property references) lies on a
nonempty reference cycle — equivalently, a depth-first traversal from
the value revisits one of the objects on its own ancestor stack. -/
def CyclicFrom (h : Heap) : HVal → Prop
  | .prim => False
  | .ref r => ∃ s, Relation.ReflTransGen (Step h) r s ∧ Relation.TransGen (Step h) s s

/-- Starting the iteration of an Array/Object value's encoding
(lines 217-241): `[Symbol.asyncIterator]()` runs `hasCircular` and
throws `CircularReference` before the `StreamIterator` is even
constructed — so nothing is emitted; otherwise the first emitted piece
is the one-byte type tag `prefix`. -/
def compositeIterStart (h : Heap) (tag : Nat) (v : HVal) : Except Err (List Nat) :=
  if hasCircular h v [] then .error .circularReference else .ok [tag]

/-! ## Chunker lemmas -/

theorem fillPieceF_fit_flush {staged p : List Nat} (f : Nat)
    (hfit : p.length ≤ CAP - staged.length) (hsoft : SOFT ≤ staged.length + p.length) :
    fillPieceF f staged p = ([staged ++ p], []) := by
  unfold fillPieceF
  rw [if_pos hfit, if_pos hsoft]

theorem fillPieceF_fit_stay {staged p : List Nat} (f : Nat)
    (hfit : p.length ≤ CAP - staged.length) (hsoft : ¬SOFT ≤ staged.length + p.length) :
    fillPieceF f staged p = ([], staged ++ p) := by
  unfold fillPieceF
  rw [if_pos hfit, if_neg hsoft]

theorem fillPieceF_split {staged p : List Nat} (f : Nat)
    (hfit : ¬p.length ≤ CAP - staged.length) :
    fillPieceF (f + 1) staged p =
      ((staged ++ List.take (CAP - staged.length) p) ::
          (fillPieceF f [] (List.drop (CAP - staged.length) p)).1,
        (fillPieceF f [] (List.drop (CAP - staged.length) p)).2) := by
  conv_lhs => unfold fillPieceF
  rw [if_neg hfit]

/-- Data preservation: the flushed chunks followed by the new staging
buffer hold exactly the old staging buffer followed by the piece. -/
theorem fillPieceF_flatten (f : Nat) (staged p : List Nat) :
    (fillPieceF f staged p).1.flatten ++ (fillPieceF f staged p).2 = staged ++ p := by
  induction f generalizing staged p with
  | zero =>
    unfold fillPieceF
    split
    · split <;> simp
    · simp
  | succ f ih =>
    by_cases hfit : p.length ≤ CAP - staged.length
    · unfold fillPieceF
      rw [if_pos hfit]
      split <;> simp
    · rw [fillPieceF_split f hfit]
      simp only [List.flatten_cons, List.append_assoc, ih]
      rw [List.nil_append, List.take_append_drop]

/-- Every chunk flushed while consuming one piece has size between the
soft threshold and the hard cap. -/
theorem fillPieceF_chunk_sizes (f : Nat) (staged p : List Nat)
    (hst : staged.length ≤ CAP) :
    ∀ c ∈ (fillPieceF f staged p).1, SOFT ≤ c.length ∧ c.length ≤ CAP := by
  have hC : CAP = 4294967295 := rfl
  have hS : SOFT = 65536 := rfl
  induction f generalizing staged p with
  | zero =>
    unfold fillPieceF
    split
    · split
      · intro c hc
        simp only [List.mem_singleton] at hc
        subst hc
        simp only [List.length_append]
        omega
      · simp
    · simp
  | succ f ih =>
    by_cases hfit : p.length ≤ CAP - staged.length
    · unfold fillPieceF
      rw [if_pos hfit]
      split
      · intro c hc
        simp only [List.mem_singleton] at hc
        subst hc
        simp only [List.length_append]
        omega
      · simp
    · rw [fillPieceF_split f hfit]
      intro c hc
      simp only [List.mem_cons] at hc
      rcases hc with hc | hc
      · subst hc
        have hlen : (List.take (CAP - staged.length) p).length = CAP - staged.length := by
          rw [List.length_take]
          omega
        simp only [List.length_append, hlen]
        omega
      · exact ih [] _ (by simp) c hc

/-- With sufficient fuel (one unit per byte is always enough, since each
split consumes at least `CAP - SOFT` bytes), the new staging buffer is
below the soft threshold: the invariant the chunker maintains between
pieces. -/
theorem fillPieceF_staged_lt (f : Nat) (staged p : List Nat)
    (hf : p.length ≤ f) (hst : staged.length < CAP) :
    (fillPieceF f staged p).2.length < SOFT := by
  have hC : CAP = 4294967295 := rfl
  have hS : SOFT = 65536 := rfl
  induction f generalizing staged p with
  | zero =>
    unfold fillPieceF
    rw [if_pos (by omega)]
    split
    · simp only [List.length_nil]
      omega
    · simp only [List.length_append]
      omega
  | succ f ih =>
    by_cases hfit : p.length ≤ CAP - staged.length
    · unfold fillPieceF
      rw [if_pos hfit]
      split
      · simp only [List.length_nil]
        omega
      · simp only [List.length_append]
        omega
    · rw [fillPieceF_split f hfit]
      exact ih [] _ (by
          rw [List.length_drop]
          omega) (by simp only [List.length_nil]; omega)

theorem fillPieceF_split' (staged p : List Nat)
    (hfit : ¬p.length ≤ CAP - staged.length) :
    fillPieceF p.length staged p =
      ((staged ++ List.take (CAP - staged.length) p) ::
          (fillPieceF (p.length - 1) [] (List.drop (CAP - staged.length) p)).1,
        (fillPieceF (p.length - 1) [] (List.drop (CAP - staged.length) p)).2) := by
  have hp : p.length = (p.length - 1) + 1 := by omega
  calc fillPieceF p.length staged p
      = fillPieceF ((p.length - 1) + 1) staged p := by rw [← hp]
    _ = _ := fillPieceF_split _ hfit

/-- The fuel argument is irrelevant from `p.length` upward. -/
theorem fillPieceF_fuel_eq (f1 : Nat) : ∀ (f2 : Nat) (staged p : List Nat),
    p.length ≤ f1 → p.length ≤ f2 → staged.length < CAP →
    fillPieceF f1 staged p = fillPieceF f2 staged p := by
  have hC : CAP = 4294967295 := rfl
  induction f1 with
  | zero =>
    intro f2 staged p hf1 hf2 hst
    have hp : p.length = 0 := by omega
    have hp' : p = [] := List.eq_nil_of_length_eq_zero hp
    subst hp'
    by_cases hsoft : SOFT ≤ staged.length + ([] : List Nat).length
    · rw [fillPieceF_fit_flush _ (by simp) hsoft, fillPieceF_fit_flush _ (by simp) hsoft]
    · rw [fillPieceF_fit_stay _ (by simp) hsoft, fillPieceF_fit_stay _ (by simp) hsoft]
  | succ f1 ih =>
    intro f2 staged p hf1 hf2 hst
    by_cases hfit : p.length ≤ CAP - staged.length
    · by_cases hsoft : SOFT ≤ staged.length + p.length
      · rw [fillPieceF_fit_flush _ hfit hsoft, fillPieceF_fit_flush _ hfit hsoft]
      · rw [fillPieceF_fit_stay _ hfit hsoft, fillPieceF_fit_stay _ hfit hsoft]
    · have hpos : 1 ≤ p.length := by omega
      cases f2 with
      | zero => omega
      | succ f2 =>
        rw [fillPieceF_split f1 hfit, fillPieceF_split f2 hfit]
        have hq : (List.drop (CAP - staged.length) p).length ≤ f1 := by
          rw [List.length_drop]
          omega
        have hq2 : (List.drop (CAP - staged.length) p).length ≤ f2 := by
          rw [List.length_drop]
          omega
        rw [ih f2 [] _ hq hq2 (by simp only [List.length_nil]; omega)]

theorem chunkStream_nil_none (staged : List Nat) :
    chunkStream staged [] none = (chunkFinish staged, none) := rfl

theorem chunkStream_nil_some (staged : List Nat) (e : Err) :
    chunkStream staged [] (some e) = ([], some e) := rfl

theorem chunkStream_cons (staged p : List Nat) (rest : List (List Nat))
    (err : Option Err) :
    chunkStream staged (p :: rest) err =
      ((fillPieceF p.length staged p).1 ++
          (chunkStream (fillPieceF p.length staged p).2 rest err).1,
        (chunkStream (fillPieceF p.length staged p).2 rest err).2) := rfl

/-- The error with which the chunker's iteration ends is exactly the
source's error. -/
theorem chunkStream_err (staged : List Nat) (pieces : List (List Nat))
    (err : Option Err) : (chunkStream staged pieces err).2 = err := by
  induction pieces generalizing staged with
  | nil => cases err <;> rfl
  | cons p rest ih => rw [chunkStream_cons]; exact ih _

/-- Data preservation for a non-throwing source: the concatenation of
all emitted chunks is the staging buffer followed by all source bytes. -/
theorem chunkStream_flatten (staged : List Nat) (pieces : List (List Nat)) :
    (chunkStream staged pieces none).1.flatten = staged ++ pieces.flatten := by
  induction pieces generalizing staged with
  | nil =>
    rw [chunkStream_nil_none]
    by_cases hz : staged.length ≠ 0
    · unfold chunkFinish
      rw [if_pos hz]
      simp
    · unfold chunkFinish
      rw [if_neg hz]
      have : staged = [] := List.eq_nil_of_length_eq_zero (by omega)
      subst this
      simp
  | cons p rest ih =>
    rw [chunkStream_cons]
    simp only [List.flatten_append, ih, List.flatten_cons, ← List.append_assoc]
    rw [fillPieceF_flatten]

/-- Shape of a completed chunk sequence: data chunks (each nonempty and
at most the hard cap) followed by exactly the zero-length terminator. -/
theorem chunkStream_shape (staged : List Nat) (pieces : List (List Nat))
    (hst : staged.length < SOFT) :
    ∃ body, (chunkStream staged pieces none).1 = body ++ [[]] ∧
      ∀ c ∈ body, c ≠ [] ∧ c.length ≤ CAP := by
  have hC : CAP = 4294967295 := rfl
  have hS : SOFT = 65536 := rfl
  induction pieces generalizing staged with
  | nil =>
    rw [chunkStream_nil_none]
    by_cases hz : staged.length ≠ 0
    · unfold chunkFinish
      rw [if_pos hz]
      refine ⟨[staged], rfl, ?_⟩
      intro c hc
      simp only [List.mem_singleton] at hc
      subst hc
      exact ⟨fun hnil => hz (by rw [hnil]; rfl), by omega⟩
    · unfold chunkFinish
      rw [if_neg hz]
      exact ⟨[], rfl, by simp⟩
  | cons p rest ih =>
    rw [chunkStream_cons]
    obtain ⟨body, hbody, hprop⟩ :=
      ih (fillPieceF p.length staged p).2
        (fillPieceF_staged_lt _ _ _ le_rfl (by omega))
    refine ⟨(fillPieceF p.length staged p).1 ++ body, ?_, ?_⟩
    · rw [hbody, List.append_assoc]
    · intro c hc
      rcases List.mem_append.1 hc with hc | hc
      · have := fillPieceF_chunk_sizes p.length staged p (by omega) c hc
        refine ⟨?_, this.2⟩
        intro hnil
        rw [hnil] at this
        simp only [List.length_nil] at this
        omega
      · exact hprop c hc

/-! ## Reading back framed chunk sequences -/

theorem readEnoughSize_append (n : Nat) (xs ys : List Nat) (h : xs.length = n) :
    readEnoughSize n (xs ++ ys) = .ok (xs, ys) := by
  subst h
  unfold readEnoughSize
  rw [if_pos (by simp), List.take_left, List.drop_left]

theorem readEnoughSize_all (bs : List Nat) :
    readEnoughSize bs.length bs = .ok (bs, []) := by
  have := readEnoughSize_append bs.length bs [] rfl
  rwa [List.append_nil] at this

theorem exceedsLimit_none (n : Nat) : exceedsLimit n none = false := rfl

theorem atLimit_none (n : Nat) : atLimit n none = false := rfl

/-- With no configured limit the cumulative size check always passes. -/
theorem sizeCheckAux_none (e : Err) (n : Nat) (cs : List (List Nat)) :
    sizeCheckAux e none n cs = .ok () := by
  induction cs generalizing n with
  | nil => rfl
  | cons c cs ih =>
    unfold sizeCheckAux
    rw [exceedsLimit_none]
    simpa using ih _

theorem except_bind_ok {α β γ : Type} (a : α) (f : α → Except γ β) :
    (Except.ok a : Except γ α) >>= f = f a := rfl

theorem except_bind_ok2 {α β γ : Type} (a : α) (f : α → Except γ β) :
    Except.bind (Except.ok a : Except γ α) f = f a := rfl

theorem readChunksF_term (f : Nat) (r : List Nat) :
    readChunksF (f + 1) (beBytes 4 0 ++ r) = .ok ([], r) := by
  unfold readChunksF
  rw [readEnoughSize_append 4 (beBytes 4 0) r (beBytes_length 4 0)]
  simp only [except_bind_ok, except_bind_ok2]
  rw [show beToNat (beBytes 4 0) = 0 from beToNat_beBytes_of_lt (by norm_num)]
  rfl

theorem readChunksF_chunk (f : Nat) (c r : List Nat) (hc : c ≠ [])
    (hlen : c.length ≤ CAP) :
    readChunksF (f + 1) ((beBytes 4 c.length ++ c) ++ r) =
      (readChunksF f r).map (fun p => (c :: p.1, p.2)) := by
  have hC : CAP = 4294967295 := rfl
  have hlt : c.length < 256 ^ 4 := by omega
  conv_lhs => unfold readChunksF
  rw [List.append_assoc,
    readEnoughSize_append 4 (beBytes 4 c.length) (c ++ r) (beBytes_length 4 _)]
  simp only [except_bind_ok, except_bind_ok2]
  rw [beToNat_beBytes_of_lt hlt]
  rw [if_neg (by simpa using hc)]
  rw [readEnoughSize_append c.length c r rfl]
  simp only [except_bind_ok, except_bind_ok2]
  cases hr : readChunksF f r with
  | ok p => rfl
  | error e => rfl

/-- Reading back a framed, terminated chunk sequence returns exactly the
data chunks and the bytes after the terminator. -/
theorem readChunksF_frame (body : List (List Nat)) (extra : List Nat)
    (hbody : ∀ c ∈ body, c ≠ [] ∧ c.length ≤ CAP) :
    ∀ f, body.length + 1 ≤ f →
      readChunksF f ((frameChunks (body ++ [[]])).flatten ++ extra) =
        .ok (body, extra) := by
  induction body with
  | nil =>
    intro f hf
    obtain ⟨f', rfl⟩ : ∃ f', f = f' + 1 := ⟨f - 1, by omega⟩
    simp only [List.nil_append, frameChunks, List.map_cons, List.map_nil,
      List.length_nil, List.append_nil, List.flatten_cons, List.flatten_nil]
    exact readChunksF_term f' extra
  | cons c body ih =>
    intro f hf
    obtain ⟨f', rfl⟩ : ∃ f', f = f' + 1 := ⟨f - 1, by omega⟩
    simp only [List.cons_append, frameChunks, List.map_cons, List.flatten_cons,
      List.append_assoc]
    have hframe : frameChunks (body ++ [[]]) = List.map
        (fun c => beBytes 4 c.length ++ c) (body ++ [[]]) := rfl
    rw [← List.append_assoc (beBytes 4 c.length) c, ← hframe]
    rw [readChunksF_chunk f' c _ (hbody c (by simp)).1 (hbody c (by simp)).2]
    rw [ih (fun x hx => hbody x (by simp [hx])) f' (by simpa using hf)]
    rfl

/-! ## Parser step lemmas -/

theorem readEnoughSize_one (t : Nat) (r : List Nat) :
    readEnoughSize 1 (t :: r) = .ok ([t], r) :=
  readEnoughSize_append 1 [t] r rfl

theorem parser_nullT (f : Nat) (opts : options) (paths : List PathSeg) (r : List Nat)
    (hdep : exceedsLimit paths.length opts.maxDepth = false) :
    parser (f + 1) opts paths (T_NULL :: r) = .ok (.null, r) := by
  unfold parser
  rw [hdep]
  simp only [Bool.false_eq_true, if_false, readEnoughSize_one, except_bind_ok,
    List.headD_cons, if_true]

theorem parser_depthT (f : Nat) (opts : options) (paths : List PathSeg) (bs : List Nat)
    (hdep : exceedsLimit paths.length opts.maxDepth = true) :
    parser (f + 1) opts paths bs = .error .depthExceeded := by
  unfold parser
  rw [hdep]
  simp only [if_true]

theorem parser_undefT (f : Nat) (opts : options) (paths : List PathSeg) (r : List Nat)
    (hdep : exceedsLimit paths.length opts.maxDepth = false) :
    parser (f + 1) opts paths (T_UNDEFINED :: r) = .ok (.undef, r) := by
  unfold parser
  rw [hdep]
  simp only [Bool.false_eq_true, if_false, readEnoughSize_one, except_bind_ok,
    List.headD_cons, T_NULL, T_UNDEFINED, Nat.one_ne_zero, if_false, if_true]

theorem parser_boolT (f : Nat) (opts : options) (paths : List PathSeg) (d : Nat)
    (r : List Nat) (hdep : exceedsLimit paths.length opts.maxDepth = false) :
    parser (f + 1) opts paths (T_BOOLEAN :: d :: r) =
      (if d = 0 then .ok (.bool false, r)
       else if d = 1 then .ok (.bool true, r)
       else .error .invalidData) := by
  unfold parser
  rw [hdep]
  simp only [Bool.false_eq_true, if_false, readEnoughSize_one, except_bind_ok,
    List.headD_cons, T_NULL, T_UNDEFINED, T_BOOLEAN]
  norm_num

theorem parser_numT (f : Nat) (opts : options) (paths : List PathSeg) (d r : List Nat)
    (hlen : d.length = 8) (hdep : exceedsLimit paths.length opts.maxDepth = false) :
    parser (f + 1) opts paths (T_NUMBER :: (d ++ r)) = .ok (.num (beToNat d), r) := by
  unfold parser
  rw [hdep]
  simp only [Bool.false_eq_true, if_false, readEnoughSize_one, except_bind_ok,
    List.headD_cons, T_NULL, T_UNDEFINED, T_BOOLEAN, T_NUMBER]
  norm_num
  rw [readEnoughSize_append 8 d r hlen]
  rfl

theorem parser_streamT (f : Nat) (opts : options) (paths : List PathSeg) (bs : List Nat)
    (hdep : exceedsLimit paths.length opts.maxDepth = false) :
    parser (f + 1) opts paths (T_STREAM :: bs) =
      (readChunksF f bs).bind (fun p =>
        match sizeCheckAux .streamSizeExceeded opts.streamMaxSize 0 p.1 with
        | .error e => .error e
        | .ok _ => .ok (.stream p.1.flatten, p.2)) := by
  unfold parser
  rw [hdep]
  simp only [Bool.false_eq_true, if_false, readEnoughSize_one, except_bind_ok,
    List.headD_cons, T_NULL, T_UNDEFINED, T_BOOLEAN, T_NUMBER, T_STREAM]
  norm_num
  rfl

theorem parser_strT (f : Nat) (opts : options) (paths : List PathSeg) (bs : List Nat)
    (hdep : exceedsLimit paths.length opts.maxDepth = false) :
    parser (f + 1) opts paths (T_STRING :: bs) =
      (readChunksF f bs).bind (fun p =>
        match sizeCheckAux .stringSizeExceeded opts.stringMaxSize 0 p.1 with
        | .error e => .error e
        | .ok _ => .ok (.str (utf8DecodeStream p.1.flatten), p.2)) := by
  unfold parser
  rw [hdep]
  simp only [Bool.false_eq_true, if_false, readEnoughSize_one, except_bind_ok,
    List.headD_cons, T_NULL, T_UNDEFINED, T_BOOLEAN, T_NUMBER, T_STREAM, T_STRING]
  norm_num
  rfl

theorem parser_arrT (f : Nat) (opts : options) (paths : List PathSeg) (bs : List Nat)
    (hdep : exceedsLimit paths.length opts.maxDepth = false) :
    parser (f + 1) opts paths (T_ARRAY :: bs) =
      (readChunksF f bs).bind (fun p =>
        (parseElems f opts paths 0 p.1.flatten).bind (fun es => .ok (.arr es, p.2))) := by
  unfold parser
  rw [hdep]
  simp only [Bool.false_eq_true, if_false, readEnoughSize_one, except_bind_ok,
    List.headD_cons, T_NULL, T_UNDEFINED, T_BOOLEAN, T_NUMBER, T_STREAM, T_STRING,
    T_ARRAY]
  norm_num
  rfl

theorem parser_objT (f : Nat) (opts : options) (paths : List PathSeg) (bs : List Nat)
    (hdep : exceedsLimit paths.length opts.maxDepth = false) :
    parser (f + 1) opts paths (T_OBJECT :: bs) =
      (readChunksF f bs).bind (fun p =>
        (parsePairs f opts paths 0 [] p.1.flatten).bind (fun prs => .ok (.obj prs, p.2))) := by
  unfold parser
  rw [hdep]
  simp only [Bool.false_eq_true, if_false, readEnoughSize_one, except_bind_ok,
    List.headD_cons, T_NULL, T_UNDEFINED, T_BOOLEAN, T_NUMBER, T_STREAM, T_STRING,
    T_ARRAY, T_OBJECT]
  norm_num
  rfl

theorem parseElems_nil (f : Nat) (opts : options) (paths : List PathSeg) (count : Nat) :
    parseElems (f + 1) opts paths count [] = .ok [] := rfl

theorem parseElems_cons (f : Nat) (opts : options) (paths : List PathSeg) (count : Nat)
    (b : Nat) (r : List Nat) (hlim : atLimit count opts.arrayMaxLength = false) :
    parseElems (f + 1) opts paths count (b :: r) =
      (parser f opts (paths ++ [.inr count]) (b :: r)).bind (fun pr =>
        (parseElems f opts paths (count + 1) pr.2).bind (fun es => .ok (pr.1 :: es))) := by
  conv_lhs => unfold parseElems
  rw [hlim]
  simp only [Bool.false_eq_true, if_false]
  rfl

theorem parseElems_limit (f : Nat) (opts : options) (paths : List PathSeg) (count : Nat)
    (b : Nat) (r : List Nat) (hlim : atLimit count opts.arrayMaxLength = true) :
    parseElems (f + 1) opts paths count (b :: r) = .error .arrayLengthExceeded := by
  unfold parseElems
  rw [hlim]
  simp only [if_true]

theorem parsePairs_nil (f : Nat) (opts : options) (paths : List PathSeg) (len : Nat)
    (acc : List (List Nat × Value)) :
    parsePairs (f + 1) opts paths len acc [] = .ok acc := rfl

theorem parsePairs_cons (f : Nat) (opts : options) (paths : List PathSeg) (len : Nat)
    (acc : List (List Nat × Value)) (r : List Nat)
    (hlim : atLimit len opts.objectMaxLength = false) :
    parsePairs (f + 1) opts paths len acc (T_STRING :: r) =
      (readChunksF f r).bind (fun p =>
        match sizeCheckAux .stringSizeExceeded opts.stringMaxSize 0 p.1 with
        | .error e => .error e
        | .ok _ =>
          (parser f opts (paths ++ [.inl (utf8Decode p.1.flatten)]) p.2).bind (fun vr =>
            parsePairs f opts paths len (objInsert acc (utf8Decode p.1.flatten) vr.1) vr.2)) := by
  conv_lhs => unfold parsePairs
  rw [hlim]
  simp only [Bool.false_eq_true, if_false, ne_eq, not_true_eq_false]
  rfl

/-! ## Induction principle for the nested value type -/

theorem Value.inductionOn {P : Value → Prop}
    (hnull : P .null) (hundef : P .undef) (hbool : ∀ b, P (.bool b))
    (hnum : ∀ n, P (.num n)) (hstr : ∀ s, P (.str s)) (hstream : ∀ bs, P (.stream bs))
    (harr : ∀ es, (∀ e ∈ es, P e) → P (.arr es))
    (hobj : ∀ prs, (∀ kv ∈ prs, P kv.2) → P (.obj prs))
    (hboolObj : ∀ b, P (.boolObj b)) (hnumObj : ∀ n, P (.numObj n))
    (hstrObj : ∀ s, P (.strObj s)) (huns : P .unsupported) :
    ∀ v, P v := by
  have key : ∀ (n : Nat) (v : Value), sizeOf v ≤ n → P v := by
    intro n
    induction n with
    | zero =>
      intro v hv
      cases v <;> simp at hv
    | succ n ih =>
      intro v hv
      cases v with
      | null => exact hnull
      | undef => exact hundef
      | bool b => exact hbool b
      | num m => exact hnum m
      | str s => exact hstr s
      | stream bs => exact hstream bs
      | arr es =>
        refine harr es fun e he => ih e ?_
        have h1 := List.sizeOf_lt_of_mem he
        have h2 : sizeOf (Value.arr es) = 1 + sizeOf es := by simp [Value.arr.sizeOf_spec]
        omega
      | obj prs =>
        refine hobj prs fun kv hkv => ih kv.2 ?_
        have h1 := List.sizeOf_lt_of_mem hkv
        have h2 : sizeOf (Value.obj prs) = 1 + sizeOf prs := by simp [Value.obj.sizeOf_spec]
        have h3 : sizeOf kv.2 < sizeOf kv := by
          obtain ⟨k, v2⟩ := kv
          simp only [Prod.mk.sizeOf_spec]
          omega
        omega
      | boolObj b => exact hboolObj b
      | numObj m => exact hnumObj m
      | strObj s => exact hstrObj s
      | unsupported => exact huns
  exact fun v => key (sizeOf v) v le_rfl

/-! ## Encoder structure lemmas -/

theorem generator_arr (es : List Value) :
    generator (.arr es) =
      ([T_ARRAY] :: frameChunks (chunkStream [] (multiGenerator es).1 (multiGenerator es).2).1,
        (chunkStream [] (multiGenerator es).1 (multiGenerator es).2).2) := rfl

theorem generator_obj (prs : List (List Nat × Value)) :
    generator (.obj prs) =
      ([T_OBJECT] :: frameChunks (chunkStream [] (multiGeneratorKV prs).1 (multiGeneratorKV prs).2).1,
        (chunkStream [] (multiGeneratorKV prs).1 (multiGeneratorKV prs).2).2) := rfl

theorem multiGenerator_cons (v : Value) (vs : List Value) :
    multiGenerator (v :: vs) =
      (match (generator v).2 with
       | some err => ((generator v).1, some err)
       | none => ((generator v).1 ++ (multiGenerator vs).1, (multiGenerator vs).2)) := rfl

theorem multiGeneratorKV_cons (k : List Nat) (v : Value) (prs : List (List Nat × Value)) :
    multiGeneratorKV ((k, v) :: prs) =
      (match (generator v).2 with
       | some err => (strPieces k ++ (generator v).1, some err)
       | none => (strPieces k ++ (generator v).1 ++ (multiGeneratorKV prs).1,
           (multiGeneratorKV prs).2)) := rfl

/-- The encoder's iteration ends in an error exactly when the value
(transitively) contains one of unrecognized kind, and that error is
`UnsupportedValue`. -/
theorem generator_err (v : Value) :
    (generator v).2 = (if hasUnsupported v then some Err.unsupportedValue else none) := by
  induction v using Value.inductionOn with
  | hnull => rfl
  | hundef => rfl
  | hbool b => rfl
  | hnum n => rfl
  | hstr s => rfl
  | hstream bs => rfl
  | hboolObj b => rfl
  | hnumObj n => rfl
  | hstrObj s => rfl
  | huns => rfl
  | harr es ih =>
    rw [generator_arr]
    simp only [chunkStream_err]
    have : (multiGenerator es).2 =
        (if hasUnsupportedList es then some Err.unsupportedValue else none) := by
      induction es with
      | nil => rfl
      | cons v vs ihl =>
        rw [multiGenerator_cons, ih v (by simp)]
        by_cases hu : hasUnsupported v
        · simp only [hu, if_true, hasUnsupportedList, Bool.true_or]
        · simp only [hu, if_false, hasUnsupportedList, Bool.false_or]
          simp only [hu] at ihl
          exact ihl fun e he => ih e (by simp [he])
    rw [this]
    show _ = (if hasUnsupported (.arr es) then _ else _)
    unfold hasUnsupported
    rfl
  | hobj prs ih =>
    rw [generator_obj]
    simp only [chunkStream_err]
    have : (multiGeneratorKV prs).2 =
        (if hasUnsupportedKV prs then some Err.unsupportedValue else none) := by
      induction prs with
      | nil => rfl
      | cons kv rest ihl =>
        obtain ⟨k, v2⟩ := kv
        rw [multiGeneratorKV_cons, ih (k, v2) (by simp)]
        by_cases hu : hasUnsupported v2
        · simp only [hu, if_true, hasUnsupportedKV, Bool.true_or]
        · simp only [hu, if_false, hasUnsupportedKV, Bool.false_or]
          simp only [hu] at ihl
          exact ihl fun kv hkv => ih kv (by simp [hkv])
    rw [this]
    show _ = (if hasUnsupported (.obj prs) then _ else _)
    unfold hasUnsupported
    rfl

theorem validListB_mem {es : List Value} (h : validListB es = true) :
    ∀ e ∈ es, validB e = true := by
  induction es with
  | nil => simp
  | cons v vs ih =>
    unfold validListB at h
    rw [Bool.and_eq_true] at h
    intro e he
    rcases List.mem_cons.1 he with rfl | he
    · exact h.1
    · exact ih h.2 e he

theorem validKVB_mem {prs : List (List Nat × Value)} (h : validKVB prs = true) :
    ∀ kv ∈ prs, (∀ c ∈ kv.1, ScalarCp c) ∧ validB kv.2 = true := by
  induction prs with
  | nil => simp
  | cons kv rest ih =>
    obtain ⟨k, v⟩ := kv
    unfold validKVB at h
    rw [Bool.and_eq_true, Bool.and_eq_true] at h
    intro kv' hkv'
    rcases List.mem_cons.1 hkv' with rfl | hkv'
    · refine ⟨?_, h.1.2⟩
      intro c hc
      have := List.all_eq_true.1 h.1.1 c hc
      exact of_decide_eq_true this
    · exact ih h.2 kv' hkv'

theorem bomFreeList_mem {es : List Value} (h : bomFreeList es = true) :
    ∀ e ∈ es, bomFree e = true := by
  induction es with
  | nil => simp
  | cons v vs ih =>
    unfold bomFreeList at h
    rw [Bool.and_eq_true] at h
    intro e he
    rcases List.mem_cons.1 he with rfl | he
    · exact h.1
    · exact ih h.2 e he

theorem bomFreeKV_mem {prs : List (List Nat × Value)} (h : bomFreeKV prs = true) :
    ∀ kv ∈ prs, kv.1.head? ≠ some 65279 ∧ bomFree kv.2 = true := by
  induction prs with
  | nil => simp
  | cons kv rest ih =>
    obtain ⟨k, v⟩ := kv
    unfold bomFreeKV at h
    rw [Bool.and_eq_true, Bool.and_eq_true] at h
    intro kv' hkv'
    rcases List.mem_cons.1 hkv' with rfl | hkv'
    · exact ⟨of_decide_eq_true h.1.1, h.1.2⟩
    · exact ih h.2 kv' hkv'

theorem validB_no_unsupported (v : Value) (hv : validB v = true) :
    hasUnsupported v = false := by
  induction v using Value.inductionOn with
  | hnull => rfl
  | hundef => rfl
  | hbool b => rfl
  | hnum n => rfl
  | hstr s => rfl
  | hstream bs => rfl
  | hboolObj b => simp [validB] at hv
  | hnumObj n => simp [validB] at hv
  | hstrObj s => simp [validB] at hv
  | huns => simp [validB] at hv
  | harr es ih =>
    unfold validB at hv
    unfold hasUnsupported
    have hm := validListB_mem hv
    induction es with
    | nil => rfl
    | cons v vs ihl =>
      unfold hasUnsupportedList
      rw [ih v (by simp) (hm v (by simp)), Bool.false_or]
      exact ihl (fun e he hve => ih e (by simp [he]) hve)
        (by
          unfold validListB at hv
          rw [Bool.and_eq_true] at hv
          exact hv.2)
        (fun e he => hm e (by simp [he]))
  | hobj prs ih =>
    unfold validB at hv
    rw [Bool.and_eq_true] at hv
    unfold hasUnsupported
    have hm := validKVB_mem hv.2
    clear hv
    induction prs with
    | nil => rfl
    | cons kv rest ihl =>
      obtain ⟨k, v2⟩ := kv
      unfold hasUnsupportedKV
      rw [ih (k, v2) (by simp) (hm (k, v2) (by simp)).2, Bool.false_or]
      exact ihl (fun kv hkv hv2 => ih kv (by simp [hkv]) hv2)
        (fun kv hkv => hm kv (by simp [hkv]))

theorem generator_none_of_valid (v : Value) (hv : validB v = true) :
    (generator v).2 = none := by
  rw [generator_err, validB_no_unsupported v hv]
  rfl

theorem multiGenerator_all_ok (vs : List Value) (h : ∀ v ∈ vs, (generator v).2 = none) :
    multiGenerator vs = ((vs.map fun v => (generator v).1).flatten, none) := by
  induction vs with
  | nil => rfl
  | cons v vs ih =>
    rw [multiGenerator_cons, h v (by simp), ih fun v' hv' => h v' (by simp [hv'])]
    simp

theorem multiGeneratorKV_all_ok (prs : List (List Nat × Value))
    (h : ∀ kv ∈ prs, (generator kv.2).2 = none) :
    multiGeneratorKV prs =
      ((prs.map fun kv => strPieces kv.1 ++ (generator kv.2).1).flatten, none) := by
  induction prs with
  | nil => rfl
  | cons kv rest ih =>
    obtain ⟨k, v⟩ := kv
    rw [multiGeneratorKV_cons, h (k, v) (by simp), ih fun kv' hkv' => h kv' (by simp [hkv'])]
    simp [List.append_assoc]

theorem encBytes_arr (es : List Value) (h : (multiGenerator es).2 = none) :
    encBytes (.arr es) =
      T_ARRAY :: (frameChunks (chunkPieces (multiGenerator es).1)).flatten := by
  unfold encBytes chunkPieces
  rw [generator_arr, h]
  simp

theorem encBytes_obj (prs : List (List Nat × Value)) (h : (multiGeneratorKV prs).2 = none) :
    encBytes (.obj prs) =
      T_OBJECT :: (frameChunks (chunkPieces (multiGeneratorKV prs).1)).flatten := by
  unfold encBytes chunkPieces
  rw [generator_obj, h]
  simp

theorem encBytes_str (s : List Nat) :
    encBytes (.str s) = T_STRING :: (frameChunks (chunkPieces [utf8Encode s])).flatten := rfl

theorem encBytes_stream (bs : List Nat) :
    encBytes (.stream bs) = T_STREAM :: (frameChunks (chunkPieces [bs])).flatten := rfl

theorem encBytes_shape (v : Value) (hv : validB v = true) :
    ∃ t r, encBytes v = t :: r := by
  cases v with
  | null => exact ⟨_, _, rfl⟩
  | undef => exact ⟨_, _, rfl⟩
  | bool b => exact ⟨_, _, rfl⟩
  | num n => exact ⟨_, _, rfl⟩
  | str s => exact ⟨_, _, rfl⟩
  | stream bs => exact ⟨_, _, rfl⟩
  | arr es =>
    refine ⟨T_ARRAY, _, encBytes_arr es ?_⟩
    have := generator_none_of_valid (.arr es) hv
    rw [generator_arr] at this
    simpa [chunkStream_err] using this
  | obj prs =>
    refine ⟨T_OBJECT, _, encBytes_obj prs ?_⟩
    have := generator_none_of_valid (.obj prs) hv
    rw [generator_obj] at this
    simpa [chunkStream_err] using this
  | boolObj b => simp [validB] at hv
  | numObj n => simp [validB] at hv
  | strObj s => simp [validB] at hv
  | unsupported => simp [validB] at hv

/-- Reading back a whole framed chunked payload produced by the chunker:
the data chunks are recovered, positioned exactly before `extra`, and
their concatenation is the source bytes. -/
theorem readChunksF_chunkPieces (pieces : List (List Nat)) (extra : List Nat) (f : Nat)
    (hf : (chunkPieces pieces).length ≤ f) :
    ∃ body, readChunksF f ((frameChunks (chunkPieces pieces)).flatten ++ extra) =
        .ok (body, extra) ∧ body.flatten = pieces.flatten := by
  obtain ⟨body, hsh, hprop⟩ := chunkStream_shape [] pieces (by simp [SOFT])
  have hbodyeq : chunkPieces pieces = body ++ [[]] := hsh
  refine ⟨body, ?_, ?_⟩
  · rw [hbodyeq]
    exact readChunksF_frame body extra hprop f
      (by rw [hbodyeq] at hf; simpa using hf)
  · have := chunkStream_flatten [] pieces
    rw [show (chunkStream [] pieces none).1 = chunkPieces pieces from rfl, hbodyeq] at this
    simpa using this

theorem flatten_flatten {α : Type} (l : List (List (List α))) :
    l.flatten.flatten = (l.map List.flatten).flatten := by
  induction l with
  | nil => rfl
  | cons x xs ih => simp [List.flatten_append, ih]

theorem objInsert_not_mem (acc : List (List Nat × Value)) (k : List Nat) (v : Value)
    (h : k ∉ acc.map Prod.fst) : objInsert acc k v = acc ++ [(k, v)] := by
  induction acc with
  | nil => rfl
  | cons kv rest ih =>
    obtain ⟨k', v'⟩ := kv
    simp only [List.map_cons, List.mem_cons, not_or] at h
    unfold objInsert
    rw [if_neg (by simpa using Ne.symm h.1)]
    rw [ih h.2]
    rfl

/-- Sequential decode of concatenated element encodings: the array
element loop recovers exactly the encoded elements. -/
theorem parseElems_seq (paths : List PathSeg) (es : List Value)
    (hval : ∀ e ∈ es, validB e = true)
    (hrt : ∀ e ∈ es, ∀ (paths' : List PathSeg) (extra' : List Nat), ∃ N, ∀ f, N ≤ f →
      parser f defaultOptions paths' (encBytes e ++ extra') = .ok (e, extra')) :
    ∀ count : Nat, ∃ N, ∀ f, N ≤ f →
      parseElems f defaultOptions paths count ((es.map encBytes).flatten) = .ok es := by
  induction es with
  | nil =>
    intro count
    exact ⟨1, fun f hf => by
      obtain ⟨f', rfl⟩ : ∃ f', f = f' + 1 := ⟨f - 1, by omega⟩
      exact parseElems_nil f' defaultOptions paths count⟩
  | cons v vs ih =>
    intro count
    obtain ⟨N1, h1⟩ := hrt v (by simp) (paths ++ [.inr count]) ((vs.map encBytes).flatten)
    obtain ⟨N2, h2⟩ := ih (fun e he => hval e (by simp [he]))
      (fun e he => hrt e (by simp [he])) (count + 1)
    refine ⟨max N1 N2 + 1, fun f hf => ?_⟩
    obtain ⟨f', rfl⟩ : ∃ f', f = f' + 1 := ⟨f - 1, by omega⟩
    have hpay : ((v :: vs).map encBytes).flatten =
        encBytes v ++ (vs.map encBytes).flatten := by simp
    rw [hpay]
    obtain ⟨t, r, hshape⟩ := encBytes_shape v (hval v (by simp))
    rw [hshape, List.cons_append,
      parseElems_cons f' defaultOptions paths count t (r ++ (vs.map encBytes).flatten) rfl,
      ← List.cons_append, ← hshape, h1 f' (by omega)]
    simp only [except_bind_ok, except_bind_ok2]
    rw [h2 f' (by omega)]
    rfl

/-- Sequential decode of concatenated key/value encodings: the object
pair loop recovers exactly the encoded pairs (appended to the
accumulator, since distinct keys make every assignment an append). -/
theorem parsePairs_seq (paths : List PathSeg) (prs : List (List Nat × Value)) :
    ∀ (acc : List (List Nat × Value)) (len : Nat),
      (∀ kv ∈ prs, (∀ c ∈ kv.1, ScalarCp c) ∧ validB kv.2 = true) →
      (∀ kv ∈ prs, kv.1.head? ≠ some 65279) →
      (∀ kv ∈ prs, ∀ (paths' : List PathSeg) (extra' : List Nat), ∃ N, ∀ f, N ≤ f →
        parser f defaultOptions paths' (encBytes kv.2 ++ extra') = .ok (kv.2, extra')) →
      (acc.map Prod.fst ++ prs.map Prod.fst).Nodup →
      ∃ N, ∀ f, N ≤ f →
        parsePairs f defaultOptions paths len acc
          ((prs.map fun kv => (strPieces kv.1).flatten ++ encBytes kv.2).flatten) =
          .ok (acc ++ prs) := by
  induction prs with
  | nil =>
    intro acc len _ _ _ _
    exact ⟨1, fun f hf => by
      obtain ⟨f', rfl⟩ : ∃ f', f = f' + 1 := ⟨f - 1, by omega⟩
      simpa using parsePairs_nil f' defaultOptions paths len acc⟩
  | cons kv rest ih =>
    intro acc len hval hbk hrt hnd
    obtain ⟨k, v⟩ := kv
    have hkacc : k ∉ acc.map Prod.fst := by
      rw [List.nodup_append] at hnd
      intro hmem
      exact hnd.2.2 hmem (by simp)
    obtain ⟨N1, h1⟩ := hrt (k, v) (by simp) (paths ++ [.inl k])
      ((rest.map fun kv => (strPieces kv.1).flatten ++ encBytes kv.2).flatten)
    obtain ⟨N2, h2⟩ := ih (acc ++ [(k, v)]) len
      (fun kv hkv => hval kv (by simp [hkv]))
      (fun kv hkv => hbk kv (by simp [hkv]))
      (fun kv hkv => hrt kv (by simp [hkv]))
      (by
        simp only [List.map_append, List.map_cons, List.map_nil, List.append_assoc,
          List.cons_append, List.nil_append] at hnd ⊢
        exact hnd)
    refine ⟨max (max N1 N2) ((chunkPieces [utf8Encode k]).length) + 1, fun f hf => ?_⟩
    obtain ⟨f', rfl⟩ : ∃ f', f = f' + 1 := ⟨f - 1, by omega⟩
    have hsp : (strPieces k).flatten =
        T_STRING :: (frameChunks (chunkPieces [utf8Encode k])).flatten := by
      simp [strPieces]
    have hpay : (((k, v) :: rest).map fun kv =>
        (strPieces kv.1).flatten ++ encBytes kv.2).flatten =
        T_STRING :: ((frameChunks (chunkPieces [utf8Encode k])).flatten ++
          (encBytes v ++ (rest.map fun kv =>
            (strPieces kv.1).flatten ++ encBytes kv.2).flatten)) := by
      simp only [List.map_cons, List.flatten_cons, hsp, List.cons_append,
        List.append_assoc]
    rw [hpay, parsePairs_cons f' defaultOptions paths len acc _ rfl]
    obtain ⟨body, hread, hflat⟩ := readChunksF_chunkPieces [utf8Encode k]
      (encBytes v ++ (rest.map fun kv =>
        (strPieces kv.1).flatten ++ encBytes kv.2).flatten) f' (by omega)
    rw [hread]
    simp only [except_bind_ok, except_bind_ok2]
    have hkey : utf8Decode body.flatten = k := by
      rw [hflat]
      simp only [List.flatten_cons, List.flatten_nil, List.append_nil]
      exact utf8Decode_utf8Encode k (hval (k, v) (by simp)).1 (hbk (k, v) (by simp))
    rw [show defaultOptions.stringMaxSize = none from rfl, sizeCheckAux_none]
    simp only [hkey]
    rw [h1 f' (by omega)]
    simp only [except_bind_ok, except_bind_ok2]
    rw [objInsert_not_mem acc k v hkacc, h2 f' (by omega), List.append_assoc]
    rfl

/-- Round-trip core: decoding the encoding of a supported value, with
anything appended, returns exactly that value and the appended bytes —
for every sufficiently large fuel bound. -/
theorem parser_encBytes (v : Value) :
    validB v = true → bomFree v = true →
    ∀ (paths : List PathSeg) (extra : List Nat), ∃ N, ∀ f, N ≤ f →
      parser f defaultOptions paths (encBytes v ++ extra) = .ok (v, extra) := by
  induction v using Value.inductionOn with
  | hnull =>
    intro _ _ paths extra
    refine ⟨1, fun f hf => ?_⟩
    obtain ⟨f', rfl⟩ : ∃ f', f = f' + 1 := ⟨f - 1, by omega⟩
    exact parser_nullT f' _ _ _ rfl
  | hundef =>
    intro _ _ paths extra
    refine ⟨1, fun f hf => ?_⟩
    obtain ⟨f', rfl⟩ : ∃ f', f = f' + 1 := ⟨f - 1, by omega⟩
    exact parser_undefT f' _ _ _ rfl
  | hbool b =>
    intro _ _ paths extra
    refine ⟨1, fun f hf => ?_⟩
    obtain ⟨f', rfl⟩ : ∃ f', f = f' + 1 := ⟨f - 1, by omega⟩
    have := parser_boolT f' defaultOptions paths (if b then 1 else 0) extra rfl
    cases b
    · simpa using this
    · simpa using this
  | hnum bits =>
    intro hv _ paths extra
    refine ⟨1, fun f hf => ?_⟩
    obtain ⟨f', rfl⟩ : ∃ f', f = f' + 1 := ⟨f - 1, by omega⟩
    unfold validB at hv
    have hlt : bits < 256 ^ 8 := by
      have := of_decide_eq_true hv
      norm_num at this ⊢
      omega
    have henc : encBytes (.num bits) = T_NUMBER :: beBytes 8 bits := by
      simp [encBytes, generator]
    rw [henc, List.cons_append]
    rw [parser_numT f' defaultOptions paths (beBytes 8 bits) extra (beBytes_length 8 bits) rfl]
    rw [beToNat_beBytes_of_lt hlt]
  | hstr s =>
    intro hv hb paths extra
    refine ⟨(chunkPieces [utf8Encode s]).length + 1, fun f hf => ?_⟩
    obtain ⟨f', rfl⟩ : ∃ f', f = f' + 1 := ⟨f - 1, by omega⟩
    rw [show encBytes (.str s) ++ extra =
        T_STRING :: ((frameChunks (chunkPieces [utf8Encode s])).flatten ++ extra) from by
      rw [encBytes_str]; rfl]
    rw [parser_strT f' defaultOptions paths _ rfl]
    obtain ⟨body, hread, hflat⟩ := readChunksF_chunkPieces [utf8Encode s] extra f' (by omega)
    rw [hread]
    simp only [except_bind_ok, except_bind_ok2]
    rw [show defaultOptions.stringMaxSize = none from rfl, sizeCheckAux_none]
    have hdec : utf8DecodeStream body.flatten = s := by
      rw [hflat]
      simp only [List.flatten_cons, List.flatten_nil, List.append_nil]
      refine utf8DecodeStream_utf8Encode s (fun c hc => ?_) ?_
      · unfold validB at hv
        exact of_decide_eq_true (List.all_eq_true.1 hv c hc)
      · unfold bomFree at hb
        exact of_decide_eq_true hb
    simp only [hdec]
  | hstream bs =>
    intro hv _ paths extra
    refine ⟨(chunkPieces [bs]).length + 1, fun f hf => ?_⟩
    obtain ⟨f', rfl⟩ : ∃ f', f = f' + 1 := ⟨f - 1, by omega⟩
    rw [show encBytes (.stream bs) ++ extra =
        T_STREAM :: ((frameChunks (chunkPieces [bs])).flatten ++ extra) from by
      rw [encBytes_stream]; rfl]
    rw [parser_streamT f' defaultOptions paths _ rfl]
    obtain ⟨body, hread, hflat⟩ := readChunksF_chunkPieces [bs] extra f' (by omega)
    rw [hread]
    simp only [except_bind_ok, except_bind_ok2]
    rw [show defaultOptions.streamMaxSize = none from rfl, sizeCheckAux_none]
    have hdec : body.flatten = bs := by
      rw [hflat]
      simp
    simp only [hdec]
  | harr es ih =>
    intro hv hb paths extra
    unfold validB at hv
    unfold bomFree at hb
    have hvm : ∀ e ∈ es, validB e = true := validListB_mem hv
    have hbm : ∀ e ∈ es, bomFree e = true := bomFreeList_mem hb
    have hnone : ∀ e ∈ es, (generator e).2 = none :=
      fun e he => generator_none_of_valid e (hvm e he)
    have hmg := multiGenerator_all_ok es hnone
    have hm2 : (multiGenerator es).2 = none := by rw [hmg]
    obtain ⟨Ns, hs⟩ := parseElems_seq paths es hvm
      (fun e he => ih e he (hvm e he) (hbm e he)) 0
    refine ⟨max Ns ((chunkPieces (multiGenerator es).1).length) + 1, fun f hf => ?_⟩
    obtain ⟨f', rfl⟩ : ∃ f', f = f' + 1 := ⟨f - 1, by omega⟩
    rw [encBytes_arr es hm2, List.cons_append, parser_arrT f' defaultOptions paths _ rfl]
    obtain ⟨body, hread, hflat⟩ :=
      readChunksF_chunkPieces (multiGenerator es).1 extra f' (by omega)
    rw [hread]
    simp only [except_bind_ok, except_bind_ok2]
    have hb : body.flatten = (es.map encBytes).flatten := by
      rw [hflat, hmg]
      show ((es.map fun v => (generator v).1).flatten).flatten = _
      rw [flatten_flatten, List.map_map]
      rfl
    rw [hb, hs f' (by omega)]
    rfl
  | hobj prs ih =>
    intro hv hb paths extra
    unfold validB at hv
    unfold bomFree at hb
    rw [Bool.and_eq_true] at hv
    have hnd : (prs.map Prod.fst).Nodup := of_decide_eq_true hv.1
    have hvm := validKVB_mem hv.2
    have hbm := bomFreeKV_mem hb
    have hnone : ∀ kv ∈ prs, (generator kv.2).2 = none :=
      fun kv hkv => generator_none_of_valid kv.2 (hvm kv hkv).2
    have hmg := multiGeneratorKV_all_ok prs hnone
    have hm2 : (multiGeneratorKV prs).2 = none := by rw [hmg]
    obtain ⟨Ns, hs⟩ := parsePairs_seq paths prs [] 0 hvm
      (fun kv hkv => (hbm kv hkv).1)
      (fun kv hkv => ih kv hkv (hvm kv hkv).2 (hbm kv hkv).2) (by simpa using hnd)
    refine ⟨max Ns ((chunkPieces (multiGeneratorKV prs).1).length) + 1, fun f hf => ?_⟩
    obtain ⟨f', rfl⟩ : ∃ f', f = f' + 1 := ⟨f - 1, by omega⟩
    rw [encBytes_obj prs hm2, List.cons_append, parser_objT f' defaultOptions paths _ rfl]
    obtain ⟨body, hread, hflat⟩ :=
      readChunksF_chunkPieces (multiGeneratorKV prs).1 extra f' (by omega)
    rw [hread]
    simp only [except_bind_ok, except_bind_ok2]
    have hb : body.flatten =
        ((prs.map fun kv => (strPieces kv.1).flatten ++ encBytes kv.2).flatten) := by
      rw [hflat, hmg]
      show ((prs.map fun kv => strPieces kv.1 ++ (generator kv.2).1).flatten).flatten = _
      rw [flatten_flatten, List.map_map]
      have heq : (List.flatten ∘ fun kv : List Nat × Value =>
          strPieces kv.1 ++ (generator kv.2).1) =
          (fun kv => (strPieces kv.1).flatten ++ encBytes kv.2) := by
        funext kv
        simp only [Function.comp_apply, List.flatten_append]
        rfl
      rw [heq]
    rw [hb, hs f' (by omega)]
    rfl
  | hboolObj b => intro hv; simp [validB] at hv
  | hnumObj n => intro hv; simp [validB] at hv
  | hstrObj s => intro hv; simp [validB] at hv
  | huns => intro hv; simp [validB] at hv

/-! ## Cycle detector correctness -/

theorem hasCircular_prim (h : Heap) (refs : List Nat) :
    hasCircular h .prim refs = false := by
  simp [hasCircular]

theorem hasCircular_mem (h : Heap) (r : Nat) (refs : List Nat) (hr : r ∈ refs) :
    hasCircular h (.ref r) refs = true := by
  rw [hasCircular]
  simp [hr]

theorem hasCircular_dangle (h : Heap) (r : Nat) (refs : List Nat) (hr : r ∉ refs)
    (hg : h[r]? = none) : hasCircular h (.ref r) refs = false := by
  rw [hasCircular]
  rw [dif_neg hr]
  split
  · rfl
  · rename_i obj heq
    rw [hg] at heq
    exact Option.noConfusion heq

theorem hasCircular_node (h : Heap) (r : Nat) (refs : List Nat)
    (obj : List HVal) (hr : r ∉ refs) (hg : h[r]? = some obj) :
    hasCircular h (.ref r) refs =
      (obj.attach.any fun c => hasCircular h c.1 (r :: refs)) := by
  rw [hasCircular]
  rw [dif_neg hr]
  split
  · rename_i heq
    rw [hg] at heq
    exact Option.noConfusion heq
  · rename_i obj' heq
    rw [hg] at heq
    injection heq with heq
    subst heq
    rfl

theorem attach_any_iff {α : Type} (l : List α) (f : α → Bool) :
    (l.attach.any fun c => f c.1) = true ↔ ∃ c ∈ l, f c = true := by
  rw [List.any_eq_true]
  constructor
  · rintro ⟨x, _, hx⟩
    exact ⟨x.1, x.2, hx⟩
  · rintro ⟨c, hc, hfc⟩
    exact ⟨⟨c, hc⟩, List.mem_attach _ _, hfc⟩

theorem step_of_mem {h : Heap} {r s : Nat} {obj : List HVal}
    (hg : h[r]? = some obj) (hmem : HVal.ref s ∈ obj) : Step h r s :=
  Step.mk obj hg hmem

/-- Unfolding the detected-by-DFS specification one level: from node `r`
(resolving to `obj`, with `r` not an ancestor), a path to an ancestor or
a reachable cycle exists exactly when one exists from some child with
`r` pushed onto the ancestor stack. -/
theorem spec_unfold (h : Heap) (r : Nat) (refs : List Nat) (obj : List HVal)
    (hr : r ∉ refs) (hg : h[r]? = some obj) :
    ((∃ t ∈ refs, Relation.ReflTransGen (Step h) r t) ∨
      (∃ s, Relation.ReflTransGen (Step h) r s ∧ Relation.TransGen (Step h) s s)) ↔
    (∃ c ∈ obj, ∃ r', c = HVal.ref r' ∧
      ((∃ t ∈ r :: refs, Relation.ReflTransGen (Step h) r' t) ∨
        (∃ s, Relation.ReflTransGen (Step h) r' s ∧ Relation.TransGen (Step h) s s))) := by
  constructor
  · rintro (⟨t, ht, hpath⟩ | ⟨s, hreach, hcyc⟩)
    · rcases Relation.ReflTransGen.cases_head hpath with heq | ⟨c, hstep, hrest⟩
      · exact absurd (heq ▸ ht) hr
      · obtain ⟨obj', hg', hmem⟩ := hstep
        rw [hg] at hg'
        injection hg' with hobj
        subst hobj
        exact ⟨.ref c, hmem, c, rfl, .inl ⟨t, List.mem_cons.mpr (.inr ht), hrest⟩⟩
    · rcases Relation.ReflTransGen.cases_head hreach with heq | ⟨c, hstep, hrest⟩
      · subst heq
        rcases Relation.TransGen.head'_iff.mp hcyc with ⟨c, hstep, hrest⟩
        obtain ⟨obj', hg', hmem⟩ := hstep
        rw [hg] at hg'
        injection hg' with hobj
        subst hobj
        exact ⟨.ref c, hmem, c, rfl, .inl ⟨r, List.mem_cons_self r refs, hrest⟩⟩
      · obtain ⟨obj', hg', hmem⟩ := hstep
        rw [hg] at hg'
        injection hg' with hobj
        subst hobj
        exact ⟨.ref c, hmem, c, rfl, .inr ⟨s, hrest, hcyc⟩⟩
  · rintro ⟨c, hc, r', rfl, (⟨t, htm, hpath⟩ | ⟨s, hreach, hcyc⟩)⟩
    · rcases List.mem_cons.mp htm with rfl | ht
      · exact .inr ⟨t, .refl, Relation.TransGen.head' (step_of_mem hg hc) hpath⟩
      · exact .inl ⟨t, ht, Relation.ReflTransGen.head (step_of_mem hg hc) hpath⟩
    · exact .inr ⟨s, Relation.ReflTransGen.head (step_of_mem hg hc) hreach, hcyc⟩

/-- `hasCircular` detects exactly the existence of a path to an ancestor
or of a reachable cycle. -/
theorem hasCircular_correct (h : Heap) : ∀ (n : Nat) (refs : List Nat) (v : HVal),
    ((Finset.range h.length) \ refs.toFinset).card ≤ n →
    (hasCircular h v refs = true ↔
      (∃ r, v = .ref r ∧
        ((∃ t ∈ refs, Relation.ReflTransGen (Step h) r t) ∨
          (∃ s, Relation.ReflTransGen (Step h) r s ∧ Relation.TransGen (Step h) s s)))) := by
  intro n
  induction n with
  | zero =>
    intro refs v hcard
    cases v with
    | prim =>
      rw [hasCircular_prim]
      simp
    | ref r =>
      by_cases hr : r ∈ refs
      · rw [hasCircular_mem h r refs hr]
        exact iff_of_true rfl ⟨r, rfl, .inl ⟨r, hr, .refl⟩⟩
      · cases hg : h[r]? with
        | none =>
          rw [hasCircular_dangle h r refs hr hg]
          refine iff_of_false (by simp) ?_
          rintro ⟨x, hx, hdisj⟩
          injection hx with hx
          subst hx
          have hnostep : ∀ s, ¬Step h r s := by
            rintro s ⟨obj', hg', _⟩
            rw [hg] at hg'
            exact Option.noConfusion hg'
          rcases hdisj with ⟨t, ht, hpath⟩ | ⟨s, hreach, hcyc⟩
          · rcases Relation.ReflTransGen.cases_head hpath with heq | ⟨c, hstep, _⟩
            · exact hr (heq ▸ ht)
            · exact hnostep c hstep
          · rcases Relation.ReflTransGen.cases_head hreach with heq | ⟨c, hstep, _⟩
            · subst heq
              rcases Relation.TransGen.head'_iff.mp hcyc with ⟨c, hstep, _⟩
              exact hnostep c hstep
            · exact hnostep c hstep
        | some obj =>
          exfalso
          have hlt : r < h.length := (List.getElem?_eq_some.mp hg).1
          have hmem : r ∈ (Finset.range h.length) \ refs.toFinset :=
            Finset.mem_sdiff.mpr ⟨Finset.mem_range.mpr hlt, by simpa using hr⟩
          have := Finset.card_pos.mpr ⟨r, hmem⟩
          omega
  | succ n ih =>
    intro refs v hcard
    cases v with
    | prim =>
      rw [hasCircular_prim]
      simp
    | ref r =>
      by_cases hr : r ∈ refs
      · rw [hasCircular_mem h r refs hr]
        exact iff_of_true rfl ⟨r, rfl, .inl ⟨r, hr, .refl⟩⟩
      · cases hg : h[r]? with
        | none =>
          rw [hasCircular_dangle h r refs hr hg]
          refine iff_of_false (by simp) ?_
          rintro ⟨x, hx, hdisj⟩
          injection hx with hx
          subst hx
          have hnostep : ∀ s, ¬Step h r s := by
            rintro s ⟨obj', hg', _⟩
            rw [hg] at hg'
            exact Option.noConfusion hg'
          rcases hdisj with ⟨t, ht, hpath⟩ | ⟨s, hreach, hcyc⟩
          · rcases Relation.ReflTransGen.cases_head hpath with heq | ⟨c, hstep, _⟩
            · exact hr (heq ▸ ht)
            · exact hnostep c hstep
          · rcases Relation.ReflTransGen.cases_head hreach with heq | ⟨c, hstep, _⟩
            · subst heq
              rcases Relation.TransGen.head'_iff.mp hcyc with ⟨c, hstep, _⟩
              exact hnostep c hstep
            · exact hnostep c hstep
        | some obj =>
          rw [hasCircular_node h r refs obj hr hg]
          have hany : (obj.attach.any fun c => hasCircular h c.1 (r :: refs)) = true ↔
              ∃ c ∈ obj, hasCircular h c (r :: refs) = true :=
            attach_any_iff obj (fun c => hasCircular h c (r :: refs))
          refine Iff.trans hany ?_
          have hlt : r < h.length := (List.getElem?_eq_some.mp hg).1
          have hmem : r ∈ (Finset.range h.length) \ refs.toFinset :=
            Finset.mem_sdiff.mpr ⟨Finset.mem_range.mpr hlt, by simpa using hr⟩
          have hcard' : ((Finset.range h.length) \ (r :: refs).toFinset).card ≤ n := by
            rw [List.toFinset_cons, Finset.sdiff_insert]
            have := Finset.card_erase_of_mem hmem
            omega
          constructor
          · rintro ⟨c, hc, hcirc⟩
            refine ⟨r, rfl, (spec_unfold h r refs obj hr hg).mpr ?_⟩
            obtain ⟨r', hr', hdisj⟩ := (ih (r :: refs) c hcard').mp hcirc
            exact ⟨c, hc, r', hr', hdisj⟩
          · rintro ⟨x, hx, hdisj⟩
            injection hx with hx
            subst hx
            obtain ⟨c, hc, r', hr', hdisj'⟩ := (spec_unfold h r refs obj hr hg).mp hdisj
            exact ⟨c, hc, (ih (r :: refs) c hcard').mpr ⟨r', hr', hdisj'⟩⟩

/-- The closed form at the start of a traversal (empty ancestor stack):
`hasCircular` is exactly cyclicity. -/
theorem hasCircular_iff_cyclic (h : Heap) (v : HVal) :
    hasCircular h v [] = true ↔ CyclicFrom h v := by
  rw [hasCircular_correct h ((Finset.range h.length).card) [] v
    (by simp)]
  cases v with
  | prim =>
    unfold CyclicFrom
    simp
  | ref r =>
    unfold CyclicFrom
    constructor
    · rintro ⟨x, hx, hdisj⟩
      injection hx with hx
      subst hx
      rcases hdisj with ⟨t, ht, _⟩ | hcyc
      · exact absurd ht (List.not_mem_nil t)
      · exact hcyc
    · intro hcyc
      exact ⟨r, rfl, .inr hcyc⟩

/-- Position of the first encoder failure in a value sequence: every
earlier (fully supported) sibling's pieces are emitted in full before
the error surfaces. -/
theorem multiGenerator_untilUnsupported (good rest : List Value)
    (h : ∀ v ∈ good, (generator v).2 = none) :
    multiGenerator (good ++ .unsupported :: rest) =
      ((good.map fun v => (generator v).1).flatten, some .unsupportedValue) := by
  induction good with
  | nil => rfl
  | cons v good' ih =>
    rw [List.cons_append, multiGenerator_cons, h v (by simp),
      ih fun v' hv' => h v' (by simp [hv'])]
    simp

/-- Key lookup in the decoded ordered mapping. -/
def lookupKey : List (List Nat × Value) → List Nat → Option Value
  | [], _ => none
  | (k', v) :: rest, k => if k' = k then some v else lookupKey rest k

theorem lookupKey_objInsert (acc : List (List Nat × Value)) (k : List Nat) (v : Value) :
    lookupKey (objInsert acc k v) k = some v := by
  induction acc with
  | nil =>
    unfold objInsert lookupKey
    rw [if_pos rfl]
  | cons kv rest ih =>
    obtain ⟨k', v'⟩ := kv
    unfold objInsert
    by_cases hk : k' = k
    · rw [if_pos hk]
      unfold lookupKey
      rw [if_pos hk]
    · rw [if_neg hk]
      unfold lookupKey
      rw [if_neg hk]
      exact ih

theorem objInsert_keys_of_mem (acc : List (List Nat × Value)) (k : List Nat) (v : Value)
    (h : k ∈ acc.map Prod.fst) :
    (objInsert acc k v).map Prod.fst = acc.map Prod.fst := by
  induction acc with
  | nil => simp at h
  | cons kv rest ih =>
    obtain ⟨k', v'⟩ := kv
    unfold objInsert
    by_cases hk : k' = k
    · rw [if_pos hk]
      simp
    · rw [if_neg hk]
      simp only [List.map_cons, List.cons.injEq, true_and]
      refine ih ?_
      simp only [List.map_cons, List.mem_cons] at h
      rcases h with rfl | h
      · exact absurd rfl hk
      · exact h

/-! ## Claim theorems -/

/-- C1 counterexample: the claim as stated is false at the supported
value `.str [65279]` (the one-codepoint string "\uFEFF", a Unicode
scalar): the decoder's `TextDecoder` strips the leading byte-order
mark, so decoding the encoding returns the empty string, not a value
equal to the input. -/
theorem spec_C1_roundtrip_cex :
    validB (Value.str [65279]) = true ∧
    parser 5 defaultOptions [] (encBytes (Value.str [65279])) =
      .ok (Value.str [], []) ∧
    Value.str [] ≠ Value.str [65279] :=
  ⟨by decide, by rfl, by
    intro h
    injection h with h
    exact List.noConfusion h⟩

/-- C1 (amended): For every supported Value (Null, Undefined, Boolean,
Number — modelled bit-exactly as its 64-bit IEEE-754 pattern, covering
NaN, ±0 and both infinities —, String of Unicode scalar codepoints
including multi-byte and astral ones, Stream of bytes, Array, Object)
in which no String payload and no Object key begins with U+FEFF,
decoding the concatenation of the chunk sequence produced by the
encoder returns a value equal to `v`; equality of `Value` is exactly
the kind-appropriate equality of the claim: bit-pattern equality for
numbers, byte equality for streams, codepoint equality for strings, and
structural equality for arrays and objects.  (The U+FEFF restriction is
forced by the counterexample: `TextDecoder`'s default leading-BOM
stripping removes such a codepoint on decode.) -/
theorem spec_C1_roundtrip (v : Value) (hv : validB v = true)
    (hb : bomFree v = true) :
    ∃ N, ∀ f, N ≤ f → parser f defaultOptions [] (encBytes v) = .ok (v, []) := by
  obtain ⟨N, hN⟩ := parser_encBytes v hv hb [] []
  refine ⟨N, fun f hf => ?_⟩
  have := hN f hf
  rwa [List.append_nil] at this

theorem spec_C1_roundtrip_witness :
    validB (Value.obj [([97], Value.arr [Value.null, Value.undef, Value.bool true,
      Value.num 123, Value.str [104, 128512], Value.stream [0, 255]])]) = true ∧
    bomFree (Value.obj [([97], Value.arr [Value.null, Value.undef, Value.bool true,
      Value.num 123, Value.str [104, 128512], Value.stream [0, 255]])]) = true ∧
    ∃ N, ∀ f, N ≤ f →
      parser f defaultOptions []
        (encBytes (Value.obj [([97], Value.arr [Value.null, Value.undef, Value.bool true,
          Value.num 123, Value.str [104, 128512], Value.stream [0, 255]])])) =
      .ok (Value.obj [([97], Value.arr [Value.null, Value.undef, Value.bool true,
        Value.num 123, Value.str [104, 128512], Value.stream [0, 255]])], []) :=
  ⟨by decide, by decide, spec_C1_roundtrip _ (by decide) (by decide)⟩

/-- C2: Every chunk sequence the encoder's chunker emits for a
chunked-type payload (the String, Stream, Array and Object branches all
drive `chunkPieces` over their piece sequences) contains exactly one
zero-length chunk, that zero-length chunk is last, and no other chunk
has length 0. -/
theorem spec_C2_terminator (pieces : List (List Nat)) :
    (chunkPieces pieces).countP (fun c => decide (c.length = 0)) = 1 ∧
    (chunkPieces pieces).getLast? = some [] ∧
    ∀ c ∈ (chunkPieces pieces).dropLast, c.length ≠ 0 := by
  obtain ⟨body, hb, hprop⟩ := chunkStream_shape [] pieces (by simp [SOFT])
  have hcp : chunkPieces pieces = body ++ [[]] := hb
  rw [hcp]
  refine ⟨?_, ?_, ?_⟩
  · rw [List.countP_append]
    have h1 : body.countP (fun c => decide (c.length = 0)) = 0 := by
      rw [List.countP_eq_zero]
      intro c hc
      have := (hprop c hc).1
      simpa [List.length_eq_zero] using this
    rw [h1]
    rfl
  · rw [List.getLast?_concat]
  · rw [List.dropLast_concat]
    intro c hc
    have := (hprop c hc).1
    simpa [List.length_eq_zero] using this

/-- C3: When the staging buffer (below the soft threshold, the chunker's
between-pieces invariant) plus the incoming piece would exceed the hard
cap, the chunker consumes exactly the prefix that fits, flushes a chunk
of length exactly 4294967295, and carries the remainder into the next
cycle; every chunk emitted from a between-pieces state is at most the
cap; and a single piece larger than the cap splits into at least two
data chunks whose concatenated data is the original bytes. -/
theorem spec_C3_hardcap :
    (∀ (staged p : List Nat) (rest : List (List Nat)) (err : Option Err),
      staged.length < SOFT → CAP < staged.length + p.length →
      chunkStream staged (p :: rest) err =
        ((staged ++ p.take (CAP - staged.length)) ::
            (chunkStream [] (p.drop (CAP - staged.length) :: rest) err).1,
          (chunkStream [] (p.drop (CAP - staged.length) :: rest) err).2) ∧
      (staged ++ p.take (CAP - staged.length)).length = CAP) ∧
    (∀ (staged : List Nat) (pieces : List (List Nat)) (err : Option Err),
      staged.length < SOFT →
      ∀ c ∈ (chunkStream staged pieces err).1, c.length ≤ CAP) ∧
    (∀ p : List Nat, CAP < p.length →
      ∃ body, chunkPieces [p] = body ++ [[]] ∧ 2 ≤ body.length ∧ body.flatten = p) := by
  have hC : CAP = 4294967295 := rfl
  have hS : SOFT = 65536 := rfl
  refine ⟨?_, ?_, ?_⟩
  · intro staged p rest err hsoft hcap
    have hfit : ¬p.length ≤ CAP - staged.length := by omega
    have hfuel : fillPieceF (p.length - 1) [] (List.drop (CAP - staged.length) p) =
        fillPieceF (List.drop (CAP - staged.length) p).length []
          (List.drop (CAP - staged.length) p) :=
      fillPieceF_fuel_eq (p.length - 1) (List.drop (CAP - staged.length) p).length []
        (List.drop (CAP - staged.length) p) (by rw [List.length_drop]; omega) le_rfl
        (by simp only [List.length_nil]; omega)
    constructor
    · rw [chunkStream_cons, fillPieceF_split' staged p hfit, hfuel,
        chunkStream_cons]
      simp [List.cons_append]
    · have : (List.take (CAP - staged.length) p).length = CAP - staged.length := by
        rw [List.length_take]
        omega
      rw [List.length_append, this]
      omega
  · intro staged pieces err hst
    induction pieces generalizing staged with
    | nil =>
      cases err with
      | none =>
        rw [chunkStream_nil_none]
        unfold chunkFinish
        split
        · intro c hc
          rcases List.mem_cons.1 hc with rfl | hc
          · omega
          · simp only [List.mem_singleton] at hc
            subst hc
            simp
        · intro c hc
          simp only [List.mem_singleton] at hc
          subst hc
          simp
      | some e =>
        rw [chunkStream_nil_some]
        simp
    | cons p rs ih =>
      rw [chunkStream_cons]
      intro c hc
      rcases List.mem_append.1 hc with hc | hc
      · exact (fillPieceF_chunk_sizes p.length staged p (by omega) c hc).2
      · exact ih (fillPieceF p.length staged p).2
          (fillPieceF_staged_lt p.length staged p le_rfl (by omega)) c hc
  · intro p hp
    obtain ⟨body, hb, hprop⟩ := chunkStream_shape [] [p] (by simp [SOFT])
    refine ⟨body, hb, ?_, ?_⟩
    · by_contra hlen
      have hflat : (chunkPieces [p]).flatten = p := by
        have := chunkStream_flatten [] [p]
        simpa [chunkPieces] using this
      rw [show chunkPieces [p] = body ++ [[]] from hb] at hflat
      simp only [List.flatten_append, List.flatten_cons, List.flatten_nil,
        List.append_nil] at hflat
      rcases body with _ | ⟨c, _ | ⟨d, tail⟩⟩
      · simp only [List.flatten_nil] at hflat
        have : p.length = 0 := by rw [← hflat]; rfl
        omega
      · have := (hprop c (by simp)).2
        simp only [List.flatten_cons, List.flatten_nil, List.append_nil] at hflat
        rw [hflat] at this
        omega
      · simp at hlen
    · have hflat : (chunkPieces [p]).flatten = p := by
        have := chunkStream_flatten [] [p]
        simpa [chunkPieces] using this
      rw [show chunkPieces [p] = body ++ [[]] from hb] at hflat
      simpa using hflat

theorem spec_C3_hardcap_witness :
    ((List.length ([] : List Nat) < SOFT ∧
        CAP < List.length ([] : List Nat) + (List.replicate (CAP + 1) 0).length) ∧
      chunkStream [] [List.replicate (CAP + 1) 0] none =
        (([] ++ (List.replicate (CAP + 1) 0).take (CAP - List.length ([] : List Nat))) ::
            (chunkStream [] ((List.replicate (CAP + 1) 0).drop
              (CAP - List.length ([] : List Nat)) :: []) none).1,
          (chunkStream [] ((List.replicate (CAP + 1) 0).drop
            (CAP - List.length ([] : List Nat)) :: []) none).2) ∧
      ([] ++ (List.replicate (CAP + 1) 0).take (CAP - List.length ([] : List Nat))).length
        = CAP) ∧
    (∃ body, chunkPieces [List.replicate (CAP + 1) 0] = body ++ [[]] ∧
      2 ≤ body.length ∧ body.flatten = List.replicate (CAP + 1) 0) := by
  have hlen : (List.replicate (CAP + 1) 0).length = CAP + 1 := List.length_replicate _ _
  have h1 : List.length ([] : List Nat) < SOFT := by simp [SOFT]
  have h2 : CAP < List.length ([] : List Nat) + (List.replicate (CAP + 1) 0).length := by
    rw [hlen]
    omega
  exact ⟨⟨⟨h1, h2⟩, spec_C3_hardcap.1 [] (List.replicate (CAP + 1) 0) [] none h1 h2⟩,
    spec_C3_hardcap.2.2 (List.replicate (CAP + 1) 0) (by rw [hlen]; omega)⟩

/-- C4: A piece that fits under the hard cap is appended whole, and a
chunk is flushed as soon as the staged size reaches the soft threshold
65536 — but only between pieces: appending may overshoot the threshold,
in which case the whole staged content goes out as one chunk.
Consequently a Stream delivered as a single piece of 65536..4294967295
bytes (e.g. one 5,000,000-byte piece) is emitted as exactly one data
chunk above the soft threshold plus the terminator, and decodes back to
the identical bytes. -/
theorem spec_C4_soft :
    (∀ (staged p : List Nat) (rest : List (List Nat)) (err : Option Err),
      staged.length + p.length ≤ CAP → SOFT ≤ staged.length + p.length →
      chunkStream staged (p :: rest) err =
        ((staged ++ p) :: (chunkStream [] rest err).1, (chunkStream [] rest err).2)) ∧
    (∀ (staged p : List Nat) (rest : List (List Nat)) (err : Option Err),
      staged.length + p.length ≤ CAP → staged.length + p.length < SOFT →
      chunkStream staged (p :: rest) err = chunkStream (staged ++ p) rest err) ∧
    (∀ p : List Nat, SOFT ≤ p.length → p.length ≤ CAP →
      chunkPieces [p] = [p, []] ∧
      ∀ f, 3 ≤ f →
        parser f defaultOptions [] (encBytes (.stream p)) = .ok (.stream p, [])) := by
  have hC : CAP = 4294967295 := rfl
  have hS : SOFT = 65536 := rfl
  refine ⟨?_, ?_, ?_⟩
  · intro staged p rest err hfit hsoft
    rw [chunkStream_cons, fillPieceF_fit_flush p.length (by omega) hsoft]
    simp [List.cons_append]
  · intro staged p rest err hfit hsoft
    rw [chunkStream_cons, fillPieceF_fit_stay p.length (by omega) (by omega)]
    simp
  · intro p hsoft hcap
    have hchunk : chunkPieces [p] = [p, []] := by
      unfold chunkPieces
      rw [chunkStream_cons, fillPieceF_fit_flush p.length
        (by simp only [List.length_nil]; omega) (by simpa using hsoft)]
      rfl
    refine ⟨hchunk, fun f hf => ?_⟩
    obtain ⟨f', rfl⟩ : ∃ f', f = f' + 1 := ⟨f - 1, by omega⟩
    rw [show encBytes (.stream p) = T_STREAM :: ((frameChunks (chunkPieces [p])).flatten ++ [])
        from by rw [encBytes_stream, List.append_nil]]
    rw [parser_streamT f' defaultOptions [] _ rfl]
    obtain ⟨body, hread, hflat⟩ := readChunksF_chunkPieces [p] [] f'
      (by rw [hchunk]; simp; omega)
    rw [hread]
    simp only [except_bind_ok, except_bind_ok2]
    rw [show defaultOptions.streamMaxSize = none from rfl, sizeCheckAux_none]
    have : body.flatten = p := by
      rw [hflat]
      simp
    simp only [this]

theorem spec_C4_soft_witness :
    ((List.replicate 5000000 7 : List Nat).length ≤ CAP ∧
      SOFT ≤ (List.replicate 5000000 7 : List Nat).length) ∧
    chunkPieces [List.replicate 5000000 7] = [List.replicate 5000000 7, []] ∧
    parser 3 defaultOptions [] (encBytes (.stream (List.replicate 5000000 7))) =
      .ok (.stream (List.replicate 5000000 7), []) := by
  have hlen : (List.replicate 5000000 7 : List Nat).length = 5000000 :=
    List.length_replicate _ _
  have h1 : (List.replicate 5000000 7 : List Nat).length ≤ CAP := by
    rw [hlen]
    norm_num [CAP]
  have h2 : SOFT ≤ (List.replicate 5000000 7 : List Nat).length := by
    rw [hlen]
    norm_num [SOFT]
  obtain ⟨hchunk, hparse⟩ := spec_C4_soft.2.2 (List.replicate 5000000 7) h2 h1
  exact ⟨⟨h1, h2⟩, hchunk, hparse 3 le_rfl⟩

/-- C5: The decoder checks the current path length against `maxDepth`
before reading each value and fails with `DepthExceeded` when the path
length exceeds it; decoding the encoding of `{foo: {bar: "baz"}}`
(keys/strings as their codepoints) with `maxDepth = 1` fails
`DepthExceeded` since its depth is 2, while with `maxDepth = 2` (the
value's deepest path length) it decodes successfully. -/
theorem spec_C5_depth :
    (∀ (f : Nat) (opts : options) (paths : List PathSeg) (bs : List Nat),
      exceedsLimit paths.length opts.maxDepth = true →
      parser (f + 1) opts paths bs = .error .depthExceeded) ∧
    (parser 32 ⟨none, none, none, none, some 1⟩ []
      (encBytes (.obj [([102, 111, 111], .obj [([98, 97, 114], .str [98, 97, 122])])])) =
      .error .depthExceeded) ∧
    (parser 32 ⟨none, none, none, none, some 2⟩ []
      (encBytes (.obj [([102, 111, 111], .obj [([98, 97, 114], .str [98, 97, 122])])])) =
      .ok (.obj [([102, 111, 111], .obj [([98, 97, 114], .str [98, 97, 122])])], [])) :=
  ⟨parser_depthT, by rfl, by rfl⟩

theorem spec_C5_depth_witness :
    exceedsLimit (List.length ([Sum.inr 0] : List PathSeg))
        (options.mk none none none none (some 0)).maxDepth = true ∧
    parser 5 (options.mk none none none none (some 0)) ([Sum.inr 0] : List PathSeg)
        [T_NULL] = .error .depthExceeded :=
  ⟨by decide, spec_C5_depth.1 4 (options.mk none none none none (some 0))
    ([Sum.inr 0] : List PathSeg) [T_NULL] (by decide)⟩

/-- C6: Starting to iterate the encoding of an Array or Object value
fails with `CircularReference` exactly when the value transitively
contains a reference cycle (some object reachable from it lies on a
nonempty cycle — equivalently the traversal revisits an ancestor), and
the failure happens before any byte, including the type tag, is
emitted; for every acyclic value the pre-flight traversal does not fail
and the first emitted piece is the type tag. -/
theorem spec_C6_circular (h : Heap) (tag : Nat) (v : HVal) :
    (compositeIterStart h tag v = .error .circularReference ↔ CyclicFrom h v) ∧
    (¬CyclicFrom h v → compositeIterStart h tag v = .ok [tag]) := by
  constructor
  · unfold compositeIterStart
    by_cases hc : hasCircular h v []
    · rw [if_pos hc]
      exact iff_of_true rfl ((hasCircular_iff_cyclic h v).mp hc)
    · rw [if_neg hc]
      refine iff_of_false (by simp) ?_
      intro hcyc
      exact hc ((hasCircular_iff_cyclic h v).mpr hcyc)
  · intro hncyc
    unfold compositeIterStart
    rw [if_neg (fun hc => hncyc ((hasCircular_iff_cyclic h v).mp hc))]

theorem spec_C6_circular_witness :
    compositeIterStart [[HVal.ref 0]] T_OBJECT (.ref 0) = .error .circularReference :=
  (spec_C6_circular [[HVal.ref 0]] T_OBJECT (.ref 0)).1.mpr
    ⟨0, .refl, Relation.TransGen.single (Step.mk [HVal.ref 0] rfl (by simp))⟩

/-- C7: With a configured `arrayMaxLength`, the decoder's element loop
fails with the array `LimitExceeded` error as soon as payload bytes
remain while the element count has reached the limit; decoding an
encoded Array of 5 elements against `arrayMaxLength = 3` fails with
that error, while an Array of exactly 3 elements decodes successfully
under the same limit. -/
theorem spec_C7_arrayLimit :
    (∀ (f : Nat) (opts : options) (paths : List PathSeg) (count b : Nat) (r : List Nat),
      atLimit count opts.arrayMaxLength = true →
      parseElems (f + 1) opts paths count (b :: r) = .error .arrayLengthExceeded) ∧
    (parser 32 ⟨none, none, some 3, none, none⟩ []
      (encBytes (.arr [.bool true, .bool true, .bool true, .bool true, .bool true])) =
      .error .arrayLengthExceeded) ∧
    (parser 32 ⟨none, none, some 3, none, none⟩ []
      (encBytes (.arr [.bool true, .bool true, .bool true])) =
      .ok (.arr [.bool true, .bool true, .bool true], [])) :=
  ⟨fun f opts paths count b r h => parseElems_limit f opts paths count b r h,
    by rfl, by rfl⟩

theorem spec_C7_arrayLimit_witness :
    atLimit 0 (options.mk none none (some 0) none none).arrayMaxLength = true ∧
    parseElems 5 (options.mk none none (some 0) none none) [] 0 [T_NULL] =
      .error .arrayLengthExceeded :=
  ⟨by decide, spec_C7_arrayLimit.1 4 (options.mk none none (some 0) none none) [] 0
    T_NULL [] (by decide)⟩

/-- C8: Encoding a value of unrecognized kind fails with
`UnsupportedValue` (the encoder's iteration for exactly the values
transitively containing an unsupported one ends in that error), and the
failure surfaces only when iteration reaches the value: for a sequence
with an unsupported element, all pieces of the earlier (fully
supported) siblings are emitted in full before the error, and inside a
composite the tag piece and the chunks flushed from those sibling bytes
are emitted before the error — no atomicity once streaming has begun. -/
theorem spec_C8_unsupported :
    (generator .unsupported = ([], some .unsupportedValue)) ∧
    (∀ v : Value, (generator v).2 = some .unsupportedValue ↔ hasUnsupported v = true) ∧
    (∀ good rest : List Value, (∀ v ∈ good, hasUnsupported v = false) →
      multiGenerator (good ++ .unsupported :: rest) =
        ((good.map fun v => (generator v).1).flatten, some .unsupportedValue)) ∧
    (∀ good rest : List Value, (∀ v ∈ good, hasUnsupported v = false) →
      generator (.arr (good ++ .unsupported :: rest)) =
        ([T_ARRAY] :: frameChunks (chunkStream []
            ((good.map fun v => (generator v).1).flatten) (some .unsupportedValue)).1,
          some .unsupportedValue)) := by
  have hgen : ∀ good : List Value, (∀ v ∈ good, hasUnsupported v = false) →
      ∀ v ∈ good, (generator v).2 = none := by
    intro good h v hv
    rw [generator_err, h v hv]
    rfl
  refine ⟨rfl, ?_, ?_, ?_⟩
  · intro v
    rw [generator_err]
    by_cases hu : hasUnsupported v
    · rw [if_pos hu]
      simp [hu]
    · rw [if_neg hu]
      simp only [Bool.not_eq_true] at hu
      simp [hu]
  · intro good rest h
    exact multiGenerator_untilUnsupported good rest (hgen good h)
  · intro good rest h
    rw [generator_arr, multiGenerator_untilUnsupported good rest (hgen good h)]
    rw [chunkStream_err]

theorem spec_C8_unsupported_witness :
    multiGenerator ([Value.bool true] ++ Value.unsupported :: []) =
      (([Value.bool true].map fun v => (generator v).1).flatten,
        some Err.unsupportedValue) :=
  spec_C8_unsupported.2.2.1 [Value.bool true] [] (by decide)

/-- C9: Decoding an Object payload that contains the same key twice does
not reject the duplicate: it succeeds, and the mapping assigns that key
the later-decoded value at the earlier key's position (`result[key] =
value` overwrites in place).  The concrete wire below encodes the pairs
(a, false), (b, false), (a, true); decoding yields the mapping with
a ↦ true in first position.  The general conjuncts state the assignment
semantics: after `objInsert` the key maps to the new value, and an
existing key's position (the key list) is unchanged. -/
theorem spec_C9_dupkeys :
    (parser 32 defaultOptions []
        ([T_OBJECT] ++ beBytes 4 36 ++
          ([T_STRING] ++ beBytes 4 1 ++ [97] ++ beBytes 4 0 ++ [T_BOOLEAN, 0] ++
            [T_STRING] ++ beBytes 4 1 ++ [98] ++ beBytes 4 0 ++ [T_BOOLEAN, 0] ++
            [T_STRING] ++ beBytes 4 1 ++ [97] ++ beBytes 4 0 ++ [T_BOOLEAN, 1]) ++
          beBytes 4 0) =
      .ok (.obj [([97], .bool true), ([98], .bool false)], [])) ∧
    (∀ (acc : List (List Nat × Value)) (k : List Nat) (v : Value),
      lookupKey (objInsert acc k v) k = some v) ∧
    (∀ (acc : List (List Nat × Value)) (k : List Nat) (v : Value),
      k ∈ acc.map Prod.fst →
      (objInsert acc k v).map Prod.fst = acc.map Prod.fst) :=
  ⟨by rfl, lookupKey_objInsert, objInsert_keys_of_mem⟩

theorem spec_C9_dupkeys_witness :
    (objInsert [([97], Value.bool false)] [97] (Value.bool true)).map Prod.fst =
      [([97], Value.bool false)].map Prod.fst :=
  spec_C9_dupkeys.2.2 [([97], Value.bool false)] [97] (Value.bool true) (by decide)

/-- C10 counterexample: the claim as stated is false at
`new String("\uFEFF")` — the wrapper does encode identically to the
primitive, but decoding the result yields the empty string, not the
primitive `.str [65279]`, because `TextDecoder` strips the leading
byte-order mark. -/
theorem spec_C10_wrappers_cex :
    generator (Value.strObj [65279]) = generator (Value.str [65279]) ∧
    parser 5 defaultOptions [] (encBytes (Value.strObj [65279])) =
      .ok (Value.str [], []) ∧
    Value.str [] ≠ Value.str [65279] :=
  ⟨rfl, by rfl, by
    intro h
    injection h with h
    exact List.noConfusion h⟩

/-- C10 (amended): The encoder accepts Boolean, Number and String
wrapper objects (`new Boolean`, `new Number`, `new String`, matched by
the `instanceof` arms of the dispatch) and encodes each byte-for-byte
identically to the corresponding primitive (via the `+value` /
`"" + value` coercions); decoding the result yields the primitive
value, where for `new String` the string must not begin with U+FEFF
(forced by the counterexample: a leading BOM is stripped on decode). -/
theorem spec_C10_wrappers :
    (∀ b, generator (.boolObj b) = generator (.bool b)) ∧
    (∀ bits, generator (.numObj bits) = generator (.num bits)) ∧
    (∀ s, generator (.strObj s) = generator (.str s)) ∧
    (∀ b, ∃ N, ∀ f, N ≤ f →
      parser f defaultOptions [] (encBytes (.boolObj b)) = .ok (.bool b, [])) ∧
    (∀ bits, bits < 2 ^ 64 → ∃ N, ∀ f, N ≤ f →
      parser f defaultOptions [] (encBytes (.numObj bits)) = .ok (.num bits, [])) ∧
    (∀ s, (∀ c ∈ s, ScalarCp c) → s.head? ≠ some 65279 → ∃ N, ∀ f, N ≤ f →
      parser f defaultOptions [] (encBytes (.strObj s)) = .ok (.str s, [])) := by
  have henc : ∀ v w : Value, generator v = generator w → encBytes v = encBytes w := by
    intro v w h
    unfold encBytes
    rw [h]
  refine ⟨fun _ => rfl, fun _ => rfl, fun _ => rfl, ?_, ?_, ?_⟩
  · intro b
    obtain ⟨N, hN⟩ := parser_encBytes (.bool b) rfl rfl [] []
    refine ⟨N, fun f hf => ?_⟩
    rw [henc (.boolObj b) (.bool b) rfl]
    have := hN f hf
    rwa [List.append_nil] at this
  · intro bits hbits
    obtain ⟨N, hN⟩ := parser_encBytes (.num bits)
      (by unfold validB; exact decide_eq_true hbits) rfl [] []
    refine ⟨N, fun f hf => ?_⟩
    rw [henc (.numObj bits) (.num bits) rfl]
    have := hN f hf
    rwa [List.append_nil] at this
  · intro s hs hsb
    obtain ⟨N, hN⟩ := parser_encBytes (.str s)
      (by
        unfold validB
        exact List.all_eq_true.mpr fun c hc => decide_eq_true (hs c hc))
      (by
        unfold bomFree
        exact decide_eq_true hsb) [] []
    refine ⟨N, fun f hf => ?_⟩
    rw [henc (.strObj s) (.str s) rfl]
    have := hN f hf
    rwa [List.append_nil] at this

theorem spec_C10_wrappers_witness :
    (generator (.boolObj true) = generator (.bool true)) ∧
    ((0 : Nat) < 2 ^ 64 ∧ ∃ N, ∀ f, N ≤ f →
      parser f defaultOptions [] (encBytes (.numObj 0)) = .ok (.num 0, [])) ∧
    ((∀ c ∈ [97], ScalarCp c) ∧ ([97] : List Nat).head? ≠ some 65279 ∧
      ∃ N, ∀ f, N ≤ f →
        parser f defaultOptions [] (encBytes (.strObj [97])) = .ok (.str [97], [])) :=
  ⟨spec_C10_wrappers.1 true,
    ⟨by norm_num, spec_C10_wrappers.2.2.2.2.1 0 (by norm_num)⟩,
    ⟨by decide, by decide, spec_C10_wrappers.2.2.2.2.2 [97] (by decide) (by decide)⟩⟩
